import Mathlib

/-!
Verification development for the torrentname release-name parser.

The Go source is embedded shallowly: strings are `List Char`, the regular
expressions of the source are values of a small `RE` type evaluated by a
backtracking matcher that reproduces Go regexp's leftmost-first semantics
for the constructs these patterns use (ordered alternation, greedy bounded
and unbounded repetition over character classes, ASCII word boundaries,
end anchors, case-insensitive literals).  `time.Now().Year()` is modelled
as an explicit `cy` parameter; the named constant `currentYear` (2026)
instantiates it for concrete evaluations.  Unicode case mapping and space
classification are modelled for the Latin-1 range, which covers every
character the embedded patterns and vocabularies can produce.
-/

namespace TorrentName

set_option maxRecDepth 100000

/-- Strings of the Go source are modelled as lists of characters. -/
abbrev Str := List Char

/-- Shorthand turning a Lean string literal into the `Str` model. -/
def sl (s : String) : Str := s.toList

/-- ASCII decimal digit. -/
def isDigitC (c : Char) : Bool := '0' ≤ c && c ≤ '9'

/-- ASCII letter or digit, the `[a-zA-Z0-9]` class. -/
def isAlnumC (c : Char) : Bool :=
  isDigitC c || ('a' ≤ c && c ≤ 'z') || ('A' ≤ c && c ≤ 'Z')

/-- Word character for Go regexp `\b`: `[0-9A-Za-z_]`. -/
def isWordC (c : Char) : Bool := isAlnumC c || c = '_'

/-- The Go regexp Perl class `\s`, i.e. `[\t\n\f\r ]`. -/
def isRegexSpace (c : Char) : Bool :=
  c = ' ' || c = '\t' || c = '\n' || c = '\x0c' || c = '\r'

/-- Go `unicode.IsSpace` restricted to the Latin-1 range. -/
def isGoSpace (c : Char) : Bool :=
  c = ' ' || c = '\t' || c = '\n' || c = '\x0b' || c = '\x0c' || c = '\r' ||
  c = '\x85' || c = '\xa0'

/-- ASCII lower-casing of one character, as Go `strings.ToLower` acts on ASCII. -/
def lcChar (c : Char) : Char :=
  if 'A' ≤ c && c ≤ 'Z' then Char.ofNat (c.toNat + 32) else c

/-- ASCII upper-casing of one character, as Go `strings.ToUpper` acts on ASCII. -/
def ucChar (c : Char) : Char :=
  if 'a' ≤ c && c ≤ 'z' then Char.ofNat (c.toNat - 32) else c

/-- Go `strings.ToLower` on the ASCII vocabulary used by the parser. -/
def lowerStr (s : Str) : Str := s.map lcChar

/-- Go `strings.ToUpper` on the ASCII vocabulary used by the parser. -/
def upperStr (s : Str) : Str := s.map ucChar

/-- Numeric value of an all-digit string. -/
def digitsVal (s : Str) : Option Nat :=
  if s ≠ [] ∧ s.all isDigitC then
    some (s.foldl (fun a c => a * 10 + (c.toNat - '0'.toNat)) 0)
  else none

/-- Go `strconv.Atoi` with the error discarded (the source always writes
`n, _ := strconv.Atoi(s)`, so a parse failure yields 0). -/
def goAtoi (s : Str) : Int :=
  match s with
  | '+' :: t => (digitsVal t).elim 0 Int.ofNat
  | '-' :: t => (digitsVal t).elim 0 (fun n => -(n : Int))
  | t => (digitsVal t).elim 0 Int.ofNat

/-! ## Regex engine

`RE` covers exactly the constructs appearing in the source's patterns.
`reMatches` lists every way the expression can match a prefix of the input,
in backtracking-preference order (ordered alternation, greedy repetition),
which is Go regexp's leftmost-first preference.  Each result records the
number of characters consumed, the last character consumed (needed for
`\b`), and the remaining input. -/

inductive RE where
  /-- one character from a class -/
  | cls (p : Char → Bool)
  /-- case-insensitive literal (exact on non-letters) -/
  | liti (s : Str)
  | seq (a b : RE)
  /-- ordered alternation: `a` is preferred -/
  | alt (a b : RE)
  /-- greedy `?` -/
  | opt (a : RE)
  /-- greedy `p{lo,hi}` over a character class -/
  | repn (p : Char → Bool) (lo hi : Nat)
  /-- greedy `p+` over a character class -/
  | plus (p : Char → Bool)
  /-- ASCII word boundary `\b` -/
  | wordB
  /-- end-of-string anchor `$` -/
  | eos

/-- Matches of a case-insensitive literal against a prefix of `s`. -/
def matchLiti : Str → Option Char → Str → List (Nat × Option Char × Str)
  | [], prev, s => [(0, prev, s)]
  | _ :: _, _, [] => []
  | c :: cs, _, d :: ds =>
      if lcChar d = lcChar c then
        (matchLiti cs (some d) ds).map (fun r => (r.1 + 1, r.2.1, r.2.2))
      else []

/-- Candidate repetition counts for a greedy `{lo,hi}` over a class: the
length of the maximal run, down to `lo`. -/
def repCounts (p : Char → Bool) (lo hi : Nat) (s : Str) : List Nat :=
  let m := min hi (s.takeWhile p).length
  ((List.range (m + 1)).reverse).filter (fun k => lo ≤ k)

/-- Result of consuming exactly `k` characters of `s`. -/
def consumed (prev : Option Char) (s : Str) (k : Nat) : Nat × Option Char × Str :=
  (k, if k = 0 then prev else (s.take k).getLast?, s.drop k)

/-- True iff `\b` holds between `prev` and the head of `s`. -/
def atWordBoundary (prev : Option Char) (s : Str) : Bool :=
  let a := match prev with | none => false | some c => isWordC c
  let b := match s with | [] => false | c :: _ => isWordC c
  a != b

/-- All prefix matches of `r` against `s`, in preference order. -/
def reMatches : RE → Option Char → Str → List (Nat × Option Char × Str)
  | .cls p, _, s =>
      match s with
      | [] => []
      | c :: cs => if p c then [(1, some c, cs)] else []
  | .liti l, prev, s => matchLiti l prev s
  | .seq a b, prev, s =>
      (reMatches a prev s).flatMap fun r =>
        (reMatches b r.2.1 r.2.2).map fun q => (r.1 + q.1, q.2.1, q.2.2)
  | .alt a b, prev, s => reMatches a prev s ++ reMatches b prev s
  | .opt a, prev, s => reMatches a prev s ++ [(0, prev, s)]
  | .repn p lo hi, prev, s => (repCounts p lo hi s).map (consumed prev s)
  | .plus p, prev, s => (repCounts p 1 s.length s).map (consumed prev s)
  | .wordB, prev, s => if atWordBoundary prev s then [(0, prev, s)] else []
  | .eos, prev, s => if s.isEmpty then [(0, prev, s)] else []

/-- Right-associated sequencing of a list of expressions. -/
def seqAll : List RE → RE
  | [] => .liti []
  | [r] => r
  | r :: rs => .seq r (seqAll rs)

/-- Left-preferring alternation of a list of expressions. -/
def altAll : List RE → RE
  | [] => .cls (fun _ => false)
  | [r] => r
  | r :: rs => .alt r (altAll rs)

/-- Case-insensitive alternation of literal words, in the order given. -/
def altWords (ws : List String) : RE := altAll (ws.map (fun w => .liti (sl w)))

/-- The length of the preferred match of `r` starting at offset `i` of
`full`, if any: Go's per-position match attempt. -/
def matchAt (r : RE) (full : Str) (i : Nat) : Option Nat :=
  let prev := if i = 0 then none else (full.take i).getLast?
  match reMatches r prev (full.drop i) with
  | [] => none
  | m :: _ => some (i + m.1)

/-- Worker for `findAll`, scanning positions left to right with fuel. -/
def findAllAux (r : RE) (full : Str) : Nat → Nat → List (Nat × Nat)
  | 0, _ => []
  | fuel + 1, i =>
      if i > full.length then []
      else
        match matchAt r full i with
        | some e =>
            if i < e then (i, e) :: findAllAux r full fuel e
            else (i, e) :: findAllAux r full fuel (i + 1)
        | none =>
            if i = full.length then [] else findAllAux r full fuel (i + 1)

/-- Go `FindAllStringIndex(s, -1)`: successive non-overlapping leftmost
matches, as `(start, end)` offset pairs. -/
def findAll (r : RE) (full : Str) : List (Nat × Nat) :=
  findAllAux r full (full.length + 1) 0

/-- The substring of `full` between offsets `st` and `en`. -/
def slice (full : Str) (st en : Nat) : Str := (full.drop st).take (en - st)

/-! ## The source's patterns -/

/-- Digit repetition `\d{lo,hi}`. -/
def dQ (lo hi : Nat) : RE := .repn isDigitC lo hi

/-- The class `[\.\s]`. -/
def dotOrSpace : RE := .cls (fun c => c = '.' || isRegexSpace c)

/-- Go: `\b(19\d{2}|20\d{2})\b`. -/
def yearPattern : RE :=
  seqAll [.wordB, .alt (.seq (.liti (sl "19")) (dQ 2 2)) (.seq (.liti (sl "20")) (dQ 2 2)), .wordB]

/-- Go: `(?i)S(\d{1,2})`. -/
def seasonPattern : RE := .seq (.liti (sl "S")) (dQ 1 2)

/-- Go: `(?i)Season[\.\s]?(\d{1,2})`. -/
def seasonAltPattern : RE := seqAll [.liti (sl "Season"), .opt dotOrSpace, dQ 1 2]

/-- Go: `(?i)S\d{1,2}E(\d{1,3})`. -/
def episodePattern : RE := seqAll [.liti (sl "S"), dQ 1 2, .liti (sl "E"), dQ 1 3]

/-- Go: `(?i)(\d{1,2})x(\d{1,3})`. -/
def altEpisodePattern : RE := seqAll [dQ 1 2, .liti (sl "x"), dQ 1 3]

/-- Go: `(\d{4})[\.\-](\d{2})[\.\-](\d{2})`. -/
def datePattern : RE :=
  seqAll [dQ 4 4, .cls (fun c => c = '.' || c = '-'), dQ 2 2,
          .cls (fun c => c = '.' || c = '-'), dQ 2 2]

/-- Go: `(?i)(2160p|4K|1080p|720p|480p|360p)`. -/
def resolutionPattern : RE := altWords ["2160p", "4K", "1080p", "720p", "480p", "360p"]

/-- Go: `(?i)\b(BLURAY|BLU-RAY|WEB-DL|WEBDL|WEBRIP|WEB|HDTV|CAM|TC|DVD|BRRIP|BDRIP)\b`. -/
def sourcePattern : RE :=
  seqAll [.wordB, altWords ["BLURAY", "BLU-RAY", "WEB-DL", "WEBDL", "WEBRIP", "WEB",
                            "HDTV", "CAM", "TC", "DVD", "BRRIP", "BDRIP"], .wordB]

/-- Go: `(?i)\b(H264|X264|AVC|H265|X265|HEVC|MPEG2|MPEG4)\b`. -/
def codecPattern : RE :=
  seqAll [.wordB, altWords ["H264", "X264", "AVC", "H265", "X265", "HEVC", "MPEG2", "MPEG4"], .wordB]

/-- Go: `(?i)\b(AAC|AC3|DTS|FLAC|TRUEHD|MP3|OGG|WAV)\b`. -/
def audioPattern : RE :=
  seqAll [.wordB, altWords ["AAC", "AC3", "DTS", "FLAC", "TRUEHD", "MP3", "OGG", "WAV"], .wordB]

/-- Go: `(?i)\b(Directors?\.?\s?Cut|Extended\.?\s?Cut|Extended|Unrated|Rated|Theatrical|Final\.?\s?Cut)\b`. -/
def editionPattern : RE :=
  seqAll [.wordB,
    altAll [seqAll [.liti (sl "Director"), .opt (.liti (sl "s")), .opt (.liti (sl ".")),
                    .opt (.cls isRegexSpace), .liti (sl "Cut")],
            seqAll [.liti (sl "Extended"), .opt (.liti (sl ".")),
                    .opt (.cls isRegexSpace), .liti (sl "Cut")],
            .liti (sl "Extended"), .liti (sl "Unrated"), .liti (sl "Rated"),
            .liti (sl "Theatrical"),
            seqAll [.liti (sl "Final"), .opt (.liti (sl ".")),
                    .opt (.cls isRegexSpace), .liti (sl "Cut")]],
    .wordB]

/-- Go: `(?i)\b(Complete)\b`. -/
def completePattern : RE := seqAll [.wordB, .liti (sl "Complete"), .wordB]

/-- Go: `(?i)\b(PROPER)\b`. -/
def properPattern : RE := seqAll [.wordB, .liti (sl "PROPER"), .wordB]

/-- Go: `(?i)\b(REPACK)\b`. -/
def repackPattern : RE := seqAll [.wordB, .liti (sl "REPACK"), .wordB]

/-- Go: `(?i)\b(HC|HARDCODED)\b`. -/
def hardcodedPattern : RE := seqAll [.wordB, altWords ["HC", "HARDCODED"], .wordB]

/-- Go: `(?i)\b(ENGLISH|...|KOREAN|MULTI)\b`. -/
def languagePattern : RE :=
  seqAll [.wordB, altWords ["ENGLISH", "FRENCH", "SPANISH", "GERMAN", "ITALIAN", "DANISH",
    "DUTCH", "JAPANESE", "CANTONESE", "MANDARIN", "RUSSIAN", "POLISH", "VIETNAMESE",
    "SWEDISH", "NORWEGIAN", "FINNISH", "TURKISH", "PORTUGUESE", "KOREAN", "MULTI"], .wordB]

/-- Go: `(?i)(SUBS|SUBBED|SUB)`. -/
def subsPattern : RE := altWords ["SUBS", "SUBBED", "SUB"]

/-- Go: `(?i)\.(mkv|mp4|avi|mov|wmv|flv|webm)$`. -/
def containerPattern : RE :=
  seqAll [.liti (sl "."), altWords ["mkv", "mp4", "avi", "mov", "wmv", "flv", "webm"], .eos]

/-- Go: `-([a-zA-Z0-9]+)(\[[^\]]+\])?$`. -/
def releaseGroupPattern : RE :=
  seqAll [.liti (sl "-"), .plus isAlnumC,
          .opt (seqAll [.liti (sl "["), .plus (fun c => c != ']'), .liti (sl "]")]), .eos]

/-- Go: `(?i)S(\d{1,2})[\.\s]?Complete`. -/
def btnSeasonPack : RE := seqAll [.liti (sl "S"), dQ 1 2, .opt dotOrSpace, .liti (sl "Complete")]

/-- Go: `(\d{4})-(\d{4})`. -/
def ptnYearRange : RE := seqAll [dQ 4 4, .liti (sl "-"), dQ 4 4]

/-- Go: `(?i)\b(Mono|Stereo)\b`. -/
def monoStereoPattern : RE := seqAll [.wordB, altWords ["Mono", "Stereo"], .wordB]

/-- Go: `(?i)\b(1\.0|2\.0|2\.1|3\.0|4\.0|5\.1|6\.0|6\.1|7\.0|7\.1|8\.1|9\.1|10\.2)\b`. -/
def channelPattern : RE :=
  seqAll [.wordB, altWords ["1.0", "2.0", "2.1", "3.0", "4.0", "5.1", "6.0", "6.1",
                            "7.0", "7.1", "8.1", "9.1", "10.2"], .wordB]

/-- Go (inline in phases 2 and the unparsed cleanup):
`(?i)\b(ATMOS|DTS-X|DTS-HD|DTS-HD MA|DTS-ES|DD\+|DD|EAC3)\b`. -/
def ddPattern : RE :=
  seqAll [.wordB, altWords ["ATMOS", "DTS-X", "DTS-HD", "DTS-HD MA", "DTS-ES",
                            "DD+", "DD", "EAC3"], .wordB]

/-- Go (inline in the subtitles handler):
`(?i)(ENG|FRE|SPA|GER|ITA|DAN|DUT|JAP|CHI|RUS|POL|VIE|SWE|NOR|FIN|TUR|POR|KOR)[\.\s]?SUBS`. -/
def subLangPattern : RE :=
  seqAll [altWords ["ENG", "FRE", "SPA", "GER", "ITA", "DAN", "DUT", "JAP", "CHI", "RUS",
                    "POL", "VIE", "SWE", "NOR", "FIN", "TUR", "POR", "KOR"],
          .opt dotOrSpace, .liti (sl "SUBS")]

/-- Go (inline in the unparsed cleanup): `(?i)\bE\d{1,3}\b`. -/
def eCodePattern : RE := seqAll [.wordB, .liti (sl "E"), dQ 1 3, .wordB]

/-- Go (inline in the unparsed cleanup): `(?i)\b\d{1,2}\.\d{1,2}\b`. -/
def dateFragPattern : RE := seqAll [.wordB, dQ 1 2, .liti (sl "."), dQ 1 2, .wordB]

/-- Go (inline in `cleanString`): `\([^\)]+\)$`. -/
def parenEndPattern : RE :=
  seqAll [.liti (sl "("), .plus (fun c => c != ')'), .liti (sl ")"), .eos]

/-! ## String utilities of the source -/

/-- The separator cutset `". -_"` of `strings.TrimRight` in
`extractTitleFromPosition`, which is also the character set of
`isOnlySeparators`. -/
def isSepC (c : Char) : Bool := c = '.' || c = ' ' || c = '-' || c = '_'

/-- Go `isOnlySeparators`: true iff every character is `.`, space, `-` or `_`. -/
def isOnlySeparators (s : Str) : Bool := s.all isSepC

/-- Remove trailing characters satisfying `p` (Go `strings.TrimRight`). -/
def trimRightIf (p : Char → Bool) (s : Str) : Str :=
  s.foldr (fun c acc => if acc.isEmpty && p c then [] else c :: acc) []

/-- Go `strings.TrimSpace`. -/
def goTrimSpace (s : Str) : Str := trimRightIf isGoSpace (s.dropWhile isGoSpace)

/-- Worker for `squeeze`; the flag records whether a whitespace run is
pending (its single replacement space is emitted before the next
non-whitespace character, or at the end). -/
def squeezeAux : Bool → Str → Str
  | pending, [] => if pending then [' '] else []
  | pending, c :: cs =>
      if isRegexSpace c then squeezeAux true cs
      else if pending then ' ' :: c :: squeezeAux false cs
      else c :: squeezeAux false cs

/-- Go `regexp \s+` replaced by a single space: each maximal run of
`\s`-characters (the leftmost-first greedy matches) becomes one space. -/
def squeeze (s : Str) : Str := squeezeAux false s

/-- Length of `dropWhile` never exceeds the input length. -/
theorem length_dropWhile_le (p : Char → Bool) (l : Str) :
    (l.dropWhile p).length ≤ l.length := by
  induction l with
  | nil => simp [List.dropWhile]
  | cons c cs ih =>
      by_cases h : p c
      · simpa [List.dropWhile, h] using Nat.le_succ_of_le ih
      · simp [List.dropWhile, h]

/-- Go `regexp \[[^\]]+\]` replaced by the empty string: the replacer
scans left to right; a match can only start at `[`, requires at least one
following non-`]` character, and ends at the first `]` after it (the
negated class cannot cross `]`). -/
def rmBrAux : Nat → Str → Str
  | 0, s => s
  | _ + 1, [] => []
  | fuel + 1, c :: cs =>
      if c = '[' then
        match cs.dropWhile (fun d => d != ']') with
        | ']' :: rest =>
            if (cs.takeWhile (fun d => d != ']')).isEmpty then c :: rmBrAux fuel cs
            else rmBrAux fuel rest
        | _ => c :: rmBrAux fuel cs
      else c :: rmBrAux fuel cs

/-- Entry point for the bracket replacer; the fuel `s.length` dominates
the recursion depth (each step drops at least one character). -/
def rmBr (s : Str) : Str := rmBrAux s.length s

/-- Worker for `removeSpans`: keep the character at index `i` unless some
span covers it. -/
def removeSpansAux (spans : List (Nat × Nat)) : Nat → Str → Str
  | _, [] => []
  | i, c :: cs =>
      if spans.any (fun sp => sp.1 ≤ i && i < sp.2) then removeSpansAux spans (i + 1) cs
      else c :: removeSpansAux spans (i + 1) cs

/-- Delete the given `(start, end)` spans from `s`: the effect of a Go
`ReplaceAllString(s, "")` once the match spans are known. -/
def removeSpans (s : Str) (spans : List (Nat × Nat)) : Str := removeSpansAux spans 0 s

/-- Go `ReplaceAllString(s, "")` for pattern `r`. -/
def replaceAllEmpty (r : RE) (s : Str) : Str := removeSpans s (findAll r s)

/-- Go `cleanString`: dots and underscores to spaces, bracketed content
and a trailing parenthetical removed, whitespace runs collapsed,
surrounding whitespace trimmed. -/
def cleanString (s : Str) : Str :=
  let s1 := s.map (fun c => if c = '.' then ' ' else c)
  let s2 := s1.map (fun c => if c = '_' then ' ' else c)
  let s3 := rmBr s2
  let s4 := replaceAllEmpty parenEndPattern s3
  goTrimSpace (squeeze s4)

/-- Go `strings.Title` (ASCII): a letter is title-cased when the previous
character is a separator, i.e. not alphanumeric and not `_`. -/
def goTitleAux : Bool → Str → Str
  | _, [] => []
  | prevSep, c :: cs =>
      (if prevSep then ucChar c else c) :: goTitleAux (!(isAlnumC c || c = '_')) cs

/-- Go `strings.Title` (the deprecated word-capitalizer). -/
def goTitle (s : Str) : Str := goTitleAux true s

/-- Go `strings.Split(s, "x")` specialised to a one-character separator. -/
def splitOnChar (c : Char) : Str → List Str
  | [] => [[]]
  | d :: ds =>
      let r := splitOnChar c ds
      if d = c then [] :: r
      else
        match r with
        | h :: t => (d :: h) :: t
        | [] => [[d]]

/-- Go `strings.LastIndex(s, string(c))` as an optional index. -/
def lastIdxOf (c : Char) (s : Str) : Option Nat :=
  (((List.range s.length).filter (fun i => s.get? i = some c))).getLast?

/-- Go `strings.Join(ws, " ")`. -/
def joinSpace : List Str → Str
  | [] => []
  | [w] => w
  | w :: ws => w ++ ' ' :: joinSpace ws

/-! ## Data model -/

/-- Go `TorrentInfo` (the phase-based variant): all metadata parsed from a
torrent name.  Optional strings are empty when absent, numbers are 0 when
absent, as in Go. -/
structure TorrentInfo where
  Title : Str := []
  Year : Int := 0
  Date : Str := []
  Season : Int := 0
  Episode : Int := 0
  Resolution : Str := []
  Source : Str := []
  Codec : Str := []
  Audio : Str := []
  ReleaseGroup : Str := []
  Container : Str := []
  Language : Str := []
  Subtitles : List Str := []
  IsComplete : Bool := false
  IsProper : Bool := false
  IsRepack : Bool := false
  IsHardcoded : Bool := false
  Edition : Str := []
  Confidence : Nat := 0
  Unparsed : Str := []
deriving DecidableEq, Repr

/-- Confidence scoring weight: year or season present. -/
def YearSeasonWeight : Nat := 40
/-- Confidence scoring weight: resolution present. -/
def ResolutionWeight : Nat := 20
/-- Confidence scoring weight: source present. -/
def SourceWeight : Nat := 10
/-- Confidence scoring weight: release group present. -/
def ReleaseGroupWeight : Nat := 10
/-- Confidence scoring weight: each minor field present. -/
def MinorFieldWeight : Nat := 1

/-- Go `isQualityTag`: the reserved vocabulary a release group must not be. -/
def isQualityTag (s : Str) : Bool :=
  (["1080p", "720p", "480p", "2160p", "4K",
    "BluRay", "WEBRip", "HDTV", "WEB",
    "x264", "x265", "H264", "H265",
    "AAC", "AC3", "DTS", "FLAC",
    "PROPER", "REPACK"].map sl).any (fun t => upperStr t = upperStr s)

/-! ## Handlers

Each Go handler mutates the record and reports accepted/rejected; here it
returns `some` of the updated record, or `none` for "rejected" (the
duplicate-termination signal). -/

/-- Resolution handler (phase 1): lower-case, folding `4k` to `2160p`. -/
def resolutionH (m : Str) (info : TorrentInfo) : Option TorrentInfo :=
  if info.Resolution = [] then
    let r := lowerStr m
    some { info with Resolution := if r = sl "4k" then sl "2160p" else r }
  else none

/-- Source handler (phase 1): synonym folding. -/
def sourceH (m : Str) (info : TorrentInfo) : Option TorrentInfo :=
  if info.Source = [] then
    let u := upperStr m
    let v :=
      if u = sl "BLURAY" ∨ u = sl "BLU-RAY" then sl "BluRay"
      else if u = sl "WEB-DL" ∨ u = sl "WEBDL" then sl "WEB-DL"
      else if u = sl "WEBRIP" ∨ u = sl "WEB" then sl "WEBRip"
      else u
    some { info with Source := v }
  else none

/-- Codec handler (phase 1): synonym folding to `H264`/`H265`. -/
def codecH (m : Str) (info : TorrentInfo) : Option TorrentInfo :=
  if info.Codec = [] then
    let u := upperStr m
    let v :=
      if u = sl "H264" ∨ u = sl "X264" ∨ u = sl "AVC" then sl "H264"
      else if u = sl "H265" ∨ u = sl "X265" ∨ u = sl "HEVC" then sl "H265"
      else u
    some { info with Codec := v }
  else none

/-- Episode handler (phase 1): season from the season marker inside the
matched span, episode from the digits after the last capital `E`
(`strings.LastIndex(match, "E")`; a lower-case `e` leaves -1, so the whole
match is fed to `Atoi` and yields 0). -/
def episodeH (m : Str) (info : TorrentInfo) : Option TorrentInfo :=
  if info.Episode = 0 then
    let info1 :=
      match findAll seasonPattern m with
      | (st, en) :: _ => { info with Season := goAtoi (slice m (st + 1) en) }
      | [] => info
    let epTxt :=
      match lastIdxOf 'E' m with
      | some k => m.drop (k + 1)
      | none => m
    some { info1 with Episode := goAtoi epTxt }
  else none

/-- Alternate-episode handler (phase 1): `strings.Split(match, "x")`; note
the split is on lower-case `x` only, while the pattern is case-insensitive,
so a capital `X` form yields one part and the handler reports rejected. -/
def altEpisodeH (m : Str) (info : TorrentInfo) : Option TorrentInfo :=
  if info.Episode = 0 then
    match splitOnChar 'x' m with
    | [a, b] => some { info with Season := goAtoi a, Episode := goAtoi b }
    | _ => none
  else none

/-- Season handler (phase 1): digits after the leading `S` (`match[1:]`). -/
def seasonH (m : Str) (info : TorrentInfo) : Option TorrentInfo :=
  if info.Season = 0 then some { info with Season := goAtoi (m.drop 1) } else none

/-- Worded-season handler (phase 1): `match[strings.Index(match, "n")+1:]`
(for an upper-case `SEASON` the index is -1 and `Atoi` fails to 0). -/
def seasonAltH (m : Str) (info : TorrentInfo) : Option TorrentInfo :=
  if info.Season = 0 then
    let rest :=
      match List.findIdx? (fun c => c = 'n') m with
      | some i => m.drop (i + 1)
      | none => m
    some { info with Season := goAtoi rest }
  else none

/-- Date handler (phase 1): normalize separators, year from the first four
digits when plausible. -/
def dateH (cy : Int) (m : Str) (info : TorrentInfo) : Option TorrentInfo :=
  if info.Date = [] then
    let info1 := { info with Date := m.map (fun c => if c = '-' then '.' else c) }
    let y := goAtoi (m.take 4)
    some (if 1895 ≤ y ∧ y ≤ cy then { info1 with Year := y } else info1)
  else none

/-- BTN season-pack handler (phase 1). -/
def btnH (m : Str) (info : TorrentInfo) : Option TorrentInfo :=
  if info.Season = 0 ∧ info.IsComplete = false then
    some { info with Season := goAtoi ((m.drop 1).takeWhile isDigitC), IsComplete := true }
  else none

/-- Year handler (phases 2 and 3): range-checked 1895..current year; an
out-of-range year on an unset field still reports rejected. -/
def yearH (cy : Int) (m : Str) (info : TorrentInfo) : Option TorrentInfo :=
  if info.Year = 0 then
    let y := goAtoi m
    if 1895 ≤ y ∧ y ≤ cy then some { info with Year := y } else none
  else none

/-- Edition handler (phases 2 and 3): dots to spaces, lower, title case. -/
def editionH (m : Str) (info : TorrentInfo) : Option TorrentInfo :=
  if info.Edition = [] then
    some { info with
      Edition := goTitle (lowerStr (m.map (fun c => if c = '.' then ' ' else c))) }
  else none

/-- Complete-flag handler (phases 2 and 3). -/
def completeH (_ : Str) (info : TorrentInfo) : Option TorrentInfo :=
  if info.IsComplete = false then some { info with IsComplete := true } else none

/-- Proper-flag handler (phases 2 and 3). -/
def properH (_ : Str) (info : TorrentInfo) : Option TorrentInfo :=
  if info.IsProper = false then some { info with IsProper := true } else none

/-- Repack-flag handler (phases 2 and 3). -/
def repackH (_ : Str) (info : TorrentInfo) : Option TorrentInfo :=
  if info.IsRepack = false then some { info with IsRepack := true } else none

/-- Hardcoded-flag handler (phases 2 and 3). -/
def hardcodedH (_ : Str) (info : TorrentInfo) : Option TorrentInfo :=
  if info.IsHardcoded = false then some { info with IsHardcoded := true } else none

/-- Language handler (phases 2 and 3): lower then title case. -/
def languageH (m : Str) (info : TorrentInfo) : Option TorrentInfo :=
  if info.Language = [] then
    some { info with Language := goTitle (lowerStr m) }
  else none

/-- Subtitles handler (phases 2 and 3): looks for 3-letter language codes
inside the matched text (which is only the `SUBS`-ish token itself). -/
def subsH (m : Str) (info : TorrentInfo) : Option TorrentInfo :=
  if info.Subtitles = [] then
    let codes := (findAll subLangPattern m).map (fun q => slice m q.1 (q.1 + 3))
    some { info with Subtitles := if codes = [] then [sl "Unknown"] else codes }
  else none

/-- Release-group handler (phases 2 and 3): the alphanumeric token after
the dash; rejected if it is a quality tag or shorter than 2. -/
def releaseGroupH (m : Str) (info : TorrentInfo) : Option TorrentInfo :=
  if info.ReleaseGroup = [] then
    let g := (m.drop 1).takeWhile isAlnumC
    if isQualityTag g = false ∧ 2 ≤ g.length then some { info with ReleaseGroup := g }
    else none
  else none

/-! ## The three-phase boundary scanner -/

/-- One pattern match tagged with its pattern's position in the phase's
pattern table. -/
structure PatMatch where
  st : Nat
  en : Nat
  idx : Nat
deriving DecidableEq, Repr

/-- Worker for `collectMatches`, numbering the patterns from `i`. -/
def collectAux (name : Str) : Nat → List RE → List PatMatch
  | _, [] => []
  | i, r :: rs =>
      (findAll r name).map (fun q => ⟨q.1, q.2, i⟩) ++ collectAux name (i + 1) rs

/-- All matches of all patterns of a phase, tagged with the pattern's
position in the phase's table, in pattern order. -/
def collectMatches (pats : List RE) (name : Str) : List PatMatch :=
  collectAux name 0 pats

/-- Insert into a list sorted by start offset descending, after any equal
start offsets (ties keep pattern-table order, as the source's strict-`<`
exchange sort does). -/
def insertDesc (m : PatMatch) : List PatMatch → List PatMatch
  | [] => [m]
  | h :: t => if h.st < m.st then m :: h :: t else h :: insertDesc m t

/-- Sort matches by start offset descending, stably. -/
def sortDesc (l : List PatMatch) : List PatMatch :=
  l.foldl (fun acc m => insertDesc m acc) []

/-- The definite-metadata pattern table of `scanDefiniteMetadata`, in
source order. -/
def definitePatterns : List RE :=
  [resolutionPattern, sourcePattern, codecPattern, episodePattern, altEpisodePattern,
   seasonPattern, seasonAltPattern, datePattern, btnSeasonPack]

/-- Handler dispatch for `definitePatterns` (same indices). -/
def definiteStep (cy : Int) : Nat → Str → TorrentInfo → Option TorrentInfo
  | 0 => resolutionH
  | 1 => sourceH
  | 2 => codecH
  | 3 => episodeH
  | 4 => altEpisodeH
  | 5 => seasonH
  | 6 => seasonAltH
  | 7 => dateH cy
  | 8 => btnH
  | _ => fun _ _ => none

/-- Phase-1 walk: skip matches at or past the boundary, move the boundary
to an accepted match's start, stop at the first rejection. -/
def runDefinite (cy : Int) (name : Str) :
    List PatMatch → TorrentInfo → Nat → TorrentInfo × Nat
  | [], info, pos => (info, pos)
  | m :: rest, info, pos =>
      if pos ≤ m.st then runDefinite cy name rest info pos
      else
        match definiteStep cy m.idx (slice name m.st m.en) info with
        | some info2 => runDefinite cy name rest info2 m.st
        | none => (info, pos)

/-- Go `scanDefiniteMetadata`. -/
def scanDefiniteMetadata (cy : Int) (name : Str) (info : TorrentInfo) (startPos : Nat) :
    TorrentInfo × Nat :=
  runDefinite cy name (sortDesc (collectMatches definitePatterns name)) info startPos

/-- The possible-metadata pattern table shared by phases 2 and 3 (phase 2
appends the four audio patterns after it), in source order. -/
def possiblePatterns : List RE :=
  [yearPattern, editionPattern, completePattern, properPattern, repackPattern,
   hardcodedPattern, languagePattern, subsPattern, releaseGroupPattern]

/-- Handler dispatch for `possiblePatterns` (same indices); the audio
patterns of phase 2 (indices 9..12) always report accepted. -/
def possibleStep (cy : Int) : Nat → Str → TorrentInfo → Option TorrentInfo
  | 0 => yearH cy
  | 1 => editionH
  | 2 => completeH
  | 3 => properH
  | 4 => repackH
  | 5 => hardcodedH
  | 6 => languageH
  | 7 => subsH
  | 8 => releaseGroupH
  | _ => fun _ info => some info

/-- The audio-fragment patterns appended in phase 2, in source order. -/
def audioPatterns : List RE :=
  [monoStereoPattern, channelPattern, audioPattern, ddPattern]

/-- Phase-2 walk: only matches at or after the boundary (the list is
sorted descending, so the first earlier match ends the walk); audio
matches are collected into `toks` before the handler runs; the boundary
never moves. -/
def runPossible1 (cy : Int) (name : Str) (pos : Nat) :
    List PatMatch → TorrentInfo → List Str → TorrentInfo × List Str
  | [], info, toks => (info, toks)
  | m :: rest, info, toks =>
      if m.st < pos then (info, toks)
      else
        let mt := slice name m.st m.en
        let toks2 := if 9 ≤ m.idx then toks ++ [upperStr mt] else toks
        match possibleStep cy m.idx mt info with
        | some info2 => runPossible1 cy name pos rest info2 toks2
        | none => (info, toks2)

/-- Go `scanPossibleMetadataPhase1`: fills fields at/after the boundary
and assembles the audio field from the collected fragments, reversed into
reading order and joined with spaces. -/
def scanPossibleMetadataPhase1 (cy : Int) (name : Str) (info : TorrentInfo)
    (startPos : Nat) : TorrentInfo × Nat :=
  let pr := runPossible1 cy name startPos
    (sortDesc (collectMatches (possiblePatterns ++ audioPatterns) name)) info []
  let info2 := pr.1
  let toks := pr.2
  (if toks = [] then info2 else { info2 with Audio := joinSpace toks.reverse }, startPos)

/-- Go `isAdjacentToMetadataStart`. -/
def isAdjacentToMetadataStart (st en pos : Nat) (name : Str) : Bool :=
  if en = pos then true
  else if st = pos then true
  else if en < pos then isOnlySeparators (slice name en pos)
  else if pos < st then isOnlySeparators (slice name pos st)
  else false

/-- Phase-3 walk: matches strictly before the boundary, never at offset 0,
only when adjacent to the boundary; an accepted match moves the boundary
left, anything else ends the walk. -/
def runPossible2 (cy : Int) (name : Str) :
    List PatMatch → TorrentInfo → Nat → TorrentInfo × Nat
  | [], info, pos => (info, pos)
  | m :: rest, info, pos =>
      if pos ≤ m.st then runPossible2 cy name rest info pos
      else if m.st = 0 then (info, pos)
      else if isAdjacentToMetadataStart m.st m.en pos name = false then (info, pos)
      else
        match possibleStep cy m.idx (slice name m.st m.en) info with
        | some info2 => runPossible2 cy name rest info2 m.st
        | none => (info, pos)

/-- Go `scanPossibleMetadataPhase2`. -/
def scanPossibleMetadataPhase2 (cy : Int) (name : Str) (info : TorrentInfo)
    (startPos : Nat) : TorrentInfo × Nat :=
  runPossible2 cy name (sortDesc (collectMatches possiblePatterns name)) info startPos

/-- Go `findMetadataBoundary`: the three phases in order. -/
def findMetadataBoundary (cy : Int) (name : Str) (info : TorrentInfo) :
    TorrentInfo × Nat :=
  let p1 := scanDefiniteMetadata cy name info name.length
  let p2 := scanPossibleMetadataPhase1 cy name p1.1 p1.2
  scanPossibleMetadataPhase2 cy name p2.1 p2.2

/-! ## Title, unparsed residue, confidence -/

/-- Go `extractTitleFromPosition` (the position is a `Nat`, so the
source's `>= 0` guard is always taken). -/
def extractTitleFromPosition (name : Str) (pos : Nat) : Str :=
  goTrimSpace (cleanString (trimRightIf isSepC (name.take pos)))

/-- The pattern table of `extractUnparsedContent`, in source order. -/
def unparsedPatterns : List RE :=
  [resolutionPattern, sourcePattern, codecPattern, audioPattern,
   languagePattern, completePattern, properPattern, repackPattern, hardcodedPattern,
   editionPattern, yearPattern, releaseGroupPattern,
   seasonPattern, seasonAltPattern, episodePattern, altEpisodePattern,
   monoStereoPattern, channelPattern, ddPattern, dateFragPattern]

/-- Go `extractUnparsedContent`. -/
def extractUnparsedContent (name : Str) (pos : Nat) : Str :=
  if name.length ≤ pos then []
  else
    let after := name.drop pos
    let r := unparsedPatterns.foldl (fun s p => replaceAllEmpty p s) after
    let r2 := replaceAllEmpty eCodePattern r
    let r3 := (r2.map (fun c => if c = '.' then ' ' else c)).map
      (fun c => if c = '-' then ' ' else c)
    goTrimSpace (squeeze r3)

/-- The weighted sum of `calculateConfidence`, in the source's order of
accumulation. -/
def confidencePoints (i : TorrentInfo) : Nat :=
  (if i.Year ≠ 0 ∨ i.Season ≠ 0 then YearSeasonWeight else 0) +
  (if i.Resolution ≠ [] then ResolutionWeight else 0) +
  (if i.Source ≠ [] then SourceWeight else 0) +
  (if i.ReleaseGroup ≠ [] then ReleaseGroupWeight else 0) +
  (if i.Episode ≠ 0 then MinorFieldWeight else 0) +
  (if i.Codec ≠ [] then MinorFieldWeight else 0) +
  (if i.Audio ≠ [] then MinorFieldWeight else 0) +
  (if i.Container ≠ [] then MinorFieldWeight else 0) +
  (if i.Language ≠ [] then MinorFieldWeight else 0) +
  (if i.Edition ≠ [] then MinorFieldWeight else 0) +
  (if i.IsComplete then MinorFieldWeight else 0) +
  (if i.IsProper then MinorFieldWeight else 0) +
  (if i.IsRepack then MinorFieldWeight else 0) +
  (if i.IsHardcoded then MinorFieldWeight else 0)

/-- Go `calculateConfidence`: the weighted sum capped at 100. -/
def calculateConfidence (i : TorrentInfo) : TorrentInfo :=
  let conf := confidencePoints i
  { i with Confidence := if 100 < conf then 100 else conf }

/-! ## Parse and ParseWithHints -/

/-- Container pre-extraction: take the last match of the end-anchored
container pattern; Go truncates at `strings.LastIndex(name, match)`, and
the matched text reaches the end of the string, so its last occurrence is
the match itself. -/
def applyContainer (info : TorrentInfo) (name : Str) : TorrentInfo × Str :=
  match (findAll containerPattern name).getLast? with
  | none => (info, name)
  | some q =>
      ({ info with Container := lowerStr (slice name (q.1 + 1) q.2) }, name.take q.1)

/-- Date pre-extraction: the first match of the date pattern; Go removes
the first occurrence of the matched text, which is the match itself (an
earlier occurrence of the same text would be an earlier match). -/
def applyDate (cy : Int) (info : TorrentInfo) (name : Str) : TorrentInfo × Str :=
  match findAll datePattern name with
  | [] => (info, name)
  | q :: _ =>
      let m := slice name q.1 q.2
      let info1 := { info with Date := m.map (fun c => if c = '-' then '.' else c) }
      let y := goAtoi (m.take 4)
      let info2 := if 1895 ≤ y ∧ y ≤ cy then { info1 with Year := y } else info1
      (info2, name.take q.1 ++ name.drop q.2)

/-- Go `Parse`, with `time.Now().Year()` as the explicit parameter `cy`.
The struct literal `&TorrentInfo{Confidence: 1.0}` initializes the integer
confidence field to 1. -/
def parseAt (cy : Int) (name0 : Str) : TorrentInfo :=
  let info0 : TorrentInfo := { Confidence := 1 }
  let c1 := applyContainer info0 name0
  let c2 := applyDate cy c1.1 c1.2
  let name := c2.2
  let b := findMetadataBoundary cy name c2.1
  calculateConfidence
    { b.1 with
      Title := extractTitleFromPosition name b.2,
      Unparsed := extractUnparsedContent name b.2 }

/-- The calendar year of this development, standing in for
`time.Now().Year()` in concrete evaluations. -/
def currentYear : Int := 2026

/-- Go `Parse` at the current year. -/
def Parse (name : Str) : TorrentInfo := parseAt currentYear name

/-- The name string after container and date pre-extraction: the string
the boundary scanner and title extraction operate on. -/
def preExtractedName (cy : Int) (name0 : Str) : Str :=
  (applyDate cy (applyContainer { Confidence := 1 } name0).1
    (applyContainer { Confidence := 1 } name0).2).2

/-- The final metadata boundary offset computed inside `parseAt`. -/
def parseBoundary (cy : Int) (name0 : Str) : Nat :=
  let c1 := applyContainer { Confidence := 1 } name0
  let c2 := applyDate cy c1.1 c1.2
  (findMetadataBoundary cy c2.2 c2.1).2

/-- Go `ParseWithHints`, with the year parameter made explicit. -/
def parseWithHintsAt (cy : Int) (name tracker : Str) : TorrentInfo :=
  let info := parseAt cy name
  let t := lowerStr tracker
  if t = sl "btn" ∨ t = sl "broadcasthenet" then
    match findAll btnSeasonPack name with
    | q :: _ =>
        { info with
          Season := goAtoi (((slice name q.1 q.2).drop 1).takeWhile isDigitC),
          IsComplete := true }
    | [] => info
  else if t = sl "ptp" ∨ t = sl "passthepopcorn" then
    match findAll ptnYearRange name with
    | q :: _ => { info with Year := goAtoi ((slice name q.1 q.2).take 4) }
    | [] => info
  else if t = sl "hdb" ∨ t = sl "hdbits" then
    { info with
      Confidence :=
        if info.Confidence * 11 < 100 then info.Confidence * 11 / 10 else 100 }
  else info

/-- Go `ParseWithHints` at the current year. -/
def ParseWithHints (name tracker : Str) : TorrentInfo :=
  parseWithHintsAt currentYear name tracker

/-! ## Title normalization and matching -/

/-- The replacement step of `NormalizeTitle`: every character outside
`[a-zA-Z0-9\s]` becomes a space. -/
def normReplace (c : Char) : Char :=
  if isAlnumC c || isRegexSpace c then c else ' '

/-- Go `strings.Fields`: split on `unicode.IsSpace`, dropping empty parts. -/
def goFields : Str → List Str
  | [] => []
  | [c] => if isGoSpace c then [] else [[c]]
  | c :: d :: cs =>
      if isGoSpace c then goFields (d :: cs)
      else
        match goFields (d :: cs) with
        | [] => [[c]]
        | w :: ws => if isGoSpace d then [c] :: w :: ws else (c :: w) :: ws

/-- The stopword set of `NormalizeTitle`. -/
def commonWords : List Str := ["the", "a", "an", "and", "or", "of"].map sl

/-- Go `NormalizeTitle`: punctuation to spaces, lower-case, split into
words, drop stopwords, rejoin with single spaces. -/
def NormalizeTitle (s : Str) : Str :=
  joinSpace ((goFields (lowerStr (s.map normReplace))).filter
    (fun w => decide (w ∉ commonWords)))

/-- Go `calculateSimilarity` (Dice coefficient over word sets), in exact
rational arithmetic; the comparisons the claims exercise involve only
exactly representable values, so the float64 of the source agrees. -/
def calculateSimilarity (s1 s2 : Str) : ℚ :=
  let set1 := (goFields s1).dedup
  let set2 := (goFields s2).dedup
  let inter := (set1.filter (fun w => decide (w ∈ set2))).length
  let total := set1.length + set2.length
  if total = 0 then 0 else 2 * (inter : ℚ) / (total : ℚ)

/-- Go `TitleMatchThreshold`. -/
def TitleMatchThreshold : ℚ := 8 / 10

/-- Go `MatchTitles`: equal normalized forms match immediately, otherwise
Dice similarity at least the threshold. -/
def MatchTitles (t1 t2 : Str) (threshold : ℚ) : Bool :=
  let n1 := NormalizeTitle t1
  let n2 := NormalizeTitle t2
  if n1 = n2 then true
  else decide (threshold ≤ calculateSimilarity n1 n2)

/-! ## Property checkers used by claim statements -/

/-- Version-1 `episodeOnlyPattern` of the same source file: `(?i)E(\d{1,3})`.
The phase-based parser has no episode-only or multi-episode pattern; this
older pattern serves to state that an episode-only form is present in an
input. -/
def episodeOnlyPattern : RE := .seq (.liti (sl "E")) (dQ 1 3)

/-- Whether `s` contains a substring of the bracketed form `\[[^\]]+\]`:
a `[`, at least one non-`]` character, then `]`. -/
def hasBrSpanB : Str → Bool
  | [] => false
  | c :: cs =>
      (c = '[' &&
        (match cs with
         | [] => false
         | d :: _ => d != ']' && cs.contains ']')) ||
      hasBrSpanB cs

/-- Whether `s` contains two consecutive space characters. -/
def hasDoubleSpace : Str → Bool
  | c :: d :: t => (c = ' ' && d = ' ') || hasDoubleSpace (d :: t)
  | _ => false

/-- Whether `s` contains a character satisfying `p`. -/
def containsCharSuch (p : Char → Bool) (s : Str) : Bool := s.any p

/-- The five canonical resolution strings plus the empty (absent) value. -/
def canonicalResolutions : List Str :=
  ["", "2160p", "1080p", "720p", "480p", "360p"].map sl
/-! ## Auxiliary definitions for the statements -/

/-- The filtered word list underlying `NormalizeTitle`. -/
def normWords (s : Str) : List Str :=
  (goFields (lowerStr (s.map normReplace))).filter (fun w => decide (w ∉ commonWords))

/-- Bracket sanity: every suffix starting with an opening bracket either
closes immediately or never closes.  The bracket replacer establishes
this, and the later cleaning stages preserve it. -/
def okBr (s : Str) : Prop :=
  ∀ t t2, t <:+ s → t = '[' :: t2 → t2.head? = some ']' ∨ ']' ∉ t2

/-- Whether the string starts with a whitespace character. -/
def startsWithWsB (s : Str) : Bool :=
  match s.head? with
  | some c => isGoSpace c
  | none => false

/-- Whether the string ends with a whitespace character. -/
def endsWithWsB (s : Str) : Bool :=
  match s.getLast? with
  | some c => isGoSpace c
  | none => false

/-- Whether the string has an alphanumeric character and no brackets or
parentheses (the condition under which cleaning cannot erase everything). -/
def hasAlnumNoBr (s : Str) : Bool :=
  s.any isAlnumC && !(s.contains '[') && !(s.contains '(')

/-! ## Supporting lemmas -/

-- C3 development
/-- Each summand of the weight table is at most its weight. -/
theorem ite_le_weight (c : Prop) [Decidable c] (a : Nat) : (if c then a else 0) ≤ a := by
  split <;> omega

/-- The weighted sum is at most 90, hence never capped. -/
theorem confidencePoints_le (i : TorrentInfo) : confidencePoints i ≤ 90 := by
  unfold confidencePoints
  unfold YearSeasonWeight ResolutionWeight SourceWeight ReleaseGroupWeight MinorFieldWeight
  have h1 := ite_le_weight (i.Year ≠ 0 ∨ i.Season ≠ 0) 40
  have h2 := ite_le_weight (i.Resolution ≠ []) 20
  have h3 := ite_le_weight (i.Source ≠ []) 10
  have h4 := ite_le_weight (i.ReleaseGroup ≠ []) 10
  have h5 := ite_le_weight (i.Episode ≠ 0) 1
  have h6 := ite_le_weight (i.Codec ≠ []) 1
  have h7 := ite_le_weight (i.Audio ≠ []) 1
  have h8 := ite_le_weight (i.Container ≠ []) 1
  have h9 := ite_le_weight (i.Language ≠ []) 1
  have h10 := ite_le_weight (i.Edition ≠ []) 1
  have h11 := ite_le_weight (i.IsComplete = true) 1
  have h12 := ite_le_weight (i.IsProper = true) 1
  have h13 := ite_le_weight (i.IsRepack = true) 1
  have h14 := ite_le_weight (i.IsHardcoded = true) 1
  omega

/-- Confidence of other fields is not an input of the weighted sum. -/
theorem confidencePoints_conf_irrelevant (i : TorrentInfo) (c : Nat) :
    confidencePoints { i with Confidence := c } = confidencePoints i := rfl

theorem calculateConfidence_spec (i : TorrentInfo) :
    (calculateConfidence i).Confidence ≤ 100 ∧
    (calculateConfidence i).Confidence = min 100 (confidencePoints (calculateConfidence i)) := by
  have hle := confidencePoints_le i
  constructor
  · show (if 100 < confidencePoints i then 100 else confidencePoints i) ≤ 100
    split <;> omega
  · show (if 100 < confidencePoints i then 100 else confidencePoints i) =
      min 100 (confidencePoints (calculateConfidence i))
    have h2 : confidencePoints (calculateConfidence i) = confidencePoints i := rfl
    rw [h2, Nat.min_eq_right (by omega), if_neg (by omega)]
-- C8 development
theorem goFields_space_cons (l : Str) : goFields (' ' :: l) = goFields l := by
  cases l with
  | nil => simp [goFields, isGoSpace]
  | cons d cs => simp [goFields, isGoSpace]

theorem goFields_word_append (w l : Str) (hw : w ≠ [])
    (hc : ∀ c ∈ w, isGoSpace c = false) :
    goFields (w ++ ' ' :: l) = w :: goFields l := by
  induction w with
  | nil => exact absurd rfl hw
  | cons c w ih =>
      have hcC : isGoSpace c = false := hc c (by simp)
      cases w with
      | nil =>
          show goFields (c :: ' ' :: l) = [c] :: goFields l
          simp only [goFields]
          simp only [hcC]
          rw [goFields_space_cons]
          cases hgf : goFields l with
          | nil => simp [isGoSpace]
          | cons w2 ws2 => simp [isGoSpace]
      | cons c2 w2 =>
          have hc2 : isGoSpace c2 = false := hc c2 (by simp)
          have ih2 := ih (by simp) (fun d hd => hc d (List.mem_cons_of_mem c hd))
          show goFields (c :: (c2 :: w2) ++ ' ' :: l) = (c :: c2 :: w2) :: goFields l
          rw [List.cons_append]
          simp only [goFields, hcC, hc2, List.append_eq, Bool.false_eq_true, if_false]
          rw [List.cons_append] at ih2
          rw [ih2]

theorem goFields_word (w : Str) (hw : w ≠ [])
    (hc : ∀ c ∈ w, isGoSpace c = false) : goFields w = [w] := by
  induction w with
  | nil => exact absurd rfl hw
  | cons c w ih =>
      have hcC : isGoSpace c = false := hc c (by simp)
      cases w with
      | nil => simp [goFields, hcC]
      | cons c2 w2 =>
          have hc2 : isGoSpace c2 = false := hc c2 (by simp)
          have ih2 := ih (by simp) (fun d hd => hc d (List.mem_cons_of_mem c hd))
          simp only [goFields]
          simp only [hcC, hc2]
          rw [ih2]
          simp

theorem goFields_joinSpace (ws : List Str) (h1 : ∀ w ∈ ws, w ≠ [])
    (h2 : ∀ w ∈ ws, ∀ c ∈ w, isGoSpace c = false) :
    goFields (joinSpace ws) = ws := by
  induction ws with
  | nil => simp [joinSpace, goFields]
  | cons w ws ih =>
      cases ws with
      | nil =>
          show goFields (joinSpace [w]) = [w]
          rw [joinSpace]
          exact goFields_word w (h1 w (by simp)) (h2 w (by simp))
      | cons w2 ws2 =>
          show goFields (w ++ ' ' :: joinSpace (w2 :: ws2)) = w :: w2 :: ws2
          rw [goFields_word_append w _ (h1 w (by simp)) (h2 w (by simp))]
          rw [ih (fun u hu => h1 u (by simp [hu])) (fun u hu => h2 u (by simp [hu]))]
/-- Words produced by `goFields` are nonempty, contain no space
characters, and consist of characters of the input. -/
theorem goFields_sound : ∀ (s : Str), ∀ w ∈ goFields s,
    w ≠ [] ∧ ∀ c ∈ w, isGoSpace c = false ∧ c ∈ s := by
  intro s
  induction s using goFields.induct with
  | case1 => simp [goFields]
  | case2 c h => simp [goFields, h]
  | case3 c h =>
      simp only [goFields, if_neg h]
      intro w hw
      simp only [List.mem_singleton] at hw
      subst hw
      refine ⟨by simp, ?_⟩
      intro c2 hc2
      simp only [List.mem_singleton] at hc2
      subst hc2
      exact ⟨by simpa using h, by simp⟩
  | case4 c d cs h ih =>
      simp only [goFields, if_pos h]
      intro w hw
      obtain ⟨hne, hprops⟩ := ih w hw
      exact ⟨hne, fun c2 hc2 => ⟨(hprops c2 hc2).1, List.mem_cons_of_mem c (hprops c2 hc2).2⟩⟩
  | case5 c d cs h hnil ih =>
      simp only [goFields, if_neg h, hnil]
      intro w hw
      simp only [List.mem_singleton] at hw
      subst hw
      refine ⟨by simp, ?_⟩
      intro c2 hc2
      simp only [List.mem_singleton] at hc2
      subst hc2
      exact ⟨by simpa using h, by simp⟩
  | case6 c d cs h w ws hgf hd ih =>
      simp only [goFields, if_neg h, hgf, if_pos hd]
      intro u hu
      rcases List.mem_cons.mp hu with hu1 | hu2
      · subst hu1
        refine ⟨by simp, ?_⟩
        intro c2 hc2
        simp only [List.mem_singleton] at hc2
        subst hc2
        exact ⟨by simpa using h, by simp⟩
      · obtain ⟨hne, hprops⟩ := ih u (hgf ▸ hu2)
        exact ⟨hne, fun c2 hc2 =>
          ⟨(hprops c2 hc2).1, List.mem_cons_of_mem c (hprops c2 hc2).2⟩⟩
  | case7 c d cs h w ws hgf hd ih =>
      simp only [goFields, if_neg h, hgf, if_neg hd]
      intro u hu
      rcases List.mem_cons.mp hu with hu1 | hu2
      · subst hu1
        obtain ⟨hne, hprops⟩ := ih w (hgf ▸ List.mem_cons_self w ws)
        refine ⟨by simp, ?_⟩
        intro c2 hc2
        rcases List.mem_cons.mp hc2 with hc3 | hc4
        · subst hc3
          exact ⟨by simpa using h, by simp⟩
        · exact ⟨(hprops c2 hc4).1, List.mem_cons_of_mem c (hprops c2 hc4).2⟩
      · obtain ⟨hne, hprops⟩ := ih u (hgf ▸ List.mem_cons_of_mem w hu2)
        exact ⟨hne, fun c2 hc2 =>
          ⟨(hprops c2 hc2).1, List.mem_cons_of_mem c (hprops c2 hc2).2⟩⟩
/-- An alphanumeric character is not a Go space character. -/
theorem alnum_not_goSpace (c : Char) (h : isAlnumC c = true) : isGoSpace c = false := by
  cases hc : isGoSpace c with
  | false => rfl
  | true =>
      exfalso
      simp only [isGoSpace, Bool.or_eq_true, decide_eq_true_eq] at hc
      rcases hc with ((((((h1 | h1) | h1) | h1) | h1) | h1) | h1) | h1 <;>
        (subst h1; exact absurd h (by decide))

/-- A regexp `\s` character is a Go space character. -/
theorem regexSpace_goSpace (c : Char) (h : isRegexSpace c = true) : isGoSpace c = true := by
  simp only [isRegexSpace, Bool.or_eq_true, decide_eq_true_eq] at h
  rcases h with (((h1 | h1) | h1) | h1) | h1 <;> (subst h1; decide)

/-- Lower-casing fixes non-upper-case characters. -/
theorem lcChar_fix (c : Char) (h : ('A' ≤ c && c ≤ 'Z') = false) : lcChar c = c := by
  unfold lcChar
  rw [h]
  simp

/-- Lower-casing fixes regexp space characters. -/
theorem lcChar_regexSpace_fix (c : Char) (h : isRegexSpace c = true) : lcChar c = c := by
  simp only [isRegexSpace, Bool.or_eq_true, decide_eq_true_eq] at h
  rcases h with (((h1 | h1) | h1) | h1) | h1 <;> (subst h1; decide)

/-- Lower-casing an upper-case letter gives a lower-case letter. -/
theorem lcChar_upper (c : Char) (h : ('A' ≤ c && c ≤ 'Z') = true) :
    ('a' ≤ lcChar c && lcChar c ≤ 'z') = true := by
  rw [Bool.and_eq_true, decide_eq_true_eq, decide_eq_true_eq] at h
  have hA : 65 ≤ c.toNat := h.1
  have hZ : c.toNat ≤ 90 := h.2
  have hv : (c.toNat + 32).isValidChar := by left; omega
  have htn : (lcChar c).toNat = c.toNat + 32 := by
    unfold lcChar
    rw [if_pos (by rw [Bool.and_eq_true, decide_eq_true_eq, decide_eq_true_eq]; exact h)]
    simp [Char.ofNat, hv]
    rfl
  rw [Bool.and_eq_true, decide_eq_true_eq, decide_eq_true_eq]
  constructor
  · show (97 : Nat) ≤ (lcChar c).toNat
    omega
  · show (lcChar c).toNat ≤ 122
    omega

/-- Lower-case letters are alphanumeric. -/
theorem lower_alnum (c : Char) (h : ('a' ≤ c && c ≤ 'z') = true) : isAlnumC c = true := by
  unfold isAlnumC
  rw [h]
  simp

/-- Lower-case letters are fixed by lower-casing. -/
theorem lower_lcFix (c : Char) (h : ('a' ≤ c && c ≤ 'z') = true) : lcChar c = c := by
  rw [Bool.and_eq_true, decide_eq_true_eq, decide_eq_true_eq] at h
  have ha : 97 ≤ c.toNat := h.1
  apply lcChar_fix
  have : ¬ (c ≤ 'Z') := by
    intro hle
    have : c.toNat ≤ 90 := hle
    omega
  simp [this]

/-- Every character of `lowerStr (s.map normReplace)` is either a fixed
alphanumeric or a regexp space character. -/
theorem base_char_prop (s : Str) (c : Char)
    (hc : c ∈ lowerStr (s.map normReplace)) :
    (isAlnumC c = true ∧ lcChar c = c) ∨ isRegexSpace c = true := by
  simp only [lowerStr, List.map_map, List.mem_map] at hc
  obtain ⟨a, _, rfl⟩ := hc
  simp only [Function.comp_apply]
  by_cases hrep : (isAlnumC a || isRegexSpace a) = true
  · have hn : normReplace a = a := by simp [normReplace, hrep]
    rw [hn]
    rcases Bool.or_eq_true _ _ |>.mp hrep with hal | hsp
    · by_cases hup : ('A' ≤ a && a ≤ 'Z') = true
      · left
        have h2 := lcChar_upper a hup
        exact ⟨lower_alnum _ h2, lower_lcFix _ h2⟩
      · rw [lcChar_fix a (by revert hup; cases ('A' ≤ a && a ≤ 'Z') <;> simp)]
        exact Or.inl ⟨hal, lcChar_fix a (by revert hup; cases ('A' ≤ a && a ≤ 'Z') <;> simp)⟩
    · right
      rw [lcChar_regexSpace_fix a hsp]
      exact hsp
  · have hn : normReplace a = ' ' := by
      simp only [normReplace]
      rw [if_neg (by revert hrep; cases (isAlnumC a || isRegexSpace a) <;> simp)]
    rw [hn]
    right
    decide
/-- Characters of a space-join come from the words or are the space. -/
theorem mem_joinSpace (ws : List Str) (c : Char) (hc : c ∈ joinSpace ws) :
    c = ' ' ∨ ∃ w ∈ ws, c ∈ w := by
  induction ws with
  | nil => simp [joinSpace] at hc
  | cons w ws ih =>
      cases ws with
      | nil =>
          simp only [joinSpace] at hc
          exact Or.inr ⟨w, by simp, hc⟩
      | cons w2 ws2 =>
          simp only [joinSpace, List.mem_append, List.mem_cons] at hc
          rcases hc with h1 | (h2 | h3)
          · exact Or.inr ⟨w, by simp, h1⟩
          · exact Or.inl h2
          · rcases ih h3 with h4 | ⟨u, hu, hcu⟩
            · exact Or.inl h4
            · exact Or.inr ⟨u, by simp [hu], hcu⟩

/-- Mapping a function that fixes every element is the identity. -/
theorem map_id_of (f : Char → Char) (t : Str) (h : ∀ c ∈ t, f c = c) : t.map f = t := by
  induction t with
  | nil => rfl
  | cons c cs ih => simp [h c (by simp), ih (fun d hd => h d (by simp [hd]))]
/-- Words of `normWords` are nonempty lower-case alphanumeric words. -/
theorem normWords_sound (s : Str) : ∀ w ∈ normWords s,
    w ≠ [] ∧ ∀ c ∈ w, isAlnumC c = true ∧ lcChar c = c := by
  intro w hw
  have hw2 := List.mem_filter.mp hw
  obtain ⟨hne, hprops⟩ := goFields_sound _ w hw2.1
  refine ⟨hne, fun c hc => ?_⟩
  obtain ⟨hns, hmem⟩ := hprops c hc
  rcases base_char_prop s c hmem with h1 | h2
  · exact h1
  · exact absurd (regexSpace_goSpace c h2) (by simp [hns])

/-- NormalizeTitle as the space-join of its word list. -/
theorem NormalizeTitle_eq_joinSpace (s : Str) :
    NormalizeTitle s = joinSpace (normWords s) := rfl

/-- Splitting the normalized title recovers its word list. -/
theorem goFields_NormalizeTitle (s : Str) :
    goFields (NormalizeTitle s) = normWords s := by
  rw [NormalizeTitle_eq_joinSpace]
  apply goFields_joinSpace
  · exact fun w hw => (normWords_sound s w hw).1
  · intro w hw c hc
    exact alnum_not_goSpace c ((normWords_sound s w hw).2 c hc).1

/-- A nonempty normalized title has a nonempty word list. -/
theorem normWords_ne_nil (s : Str) (h : NormalizeTitle s ≠ []) : normWords s ≠ [] := by
  intro hn
  rw [NormalizeTitle_eq_joinSpace, hn] at h
  exact h rfl

/-- Dice similarity with an empty left side is 0. -/
theorem calculateSimilarity_nil_left (s2 : Str) :
    calculateSimilarity [] s2 = 0 := by
  unfold calculateSimilarity
  simp [goFields]

/-- Dice similarity with an empty right side is 0. -/
theorem calculateSimilarity_nil_right (s1 : Str) :
    calculateSimilarity s1 [] = 0 := by
  unfold calculateSimilarity
  simp [goFields]

/-- A literal match consumes exactly the literal's length, leaves the
matching drop of the input, and the consumed prefix case-folds to the
literal. -/
theorem matchLiti_sound (l : Str) : ∀ (prev : Option Char) (s : Str),
    ∀ m ∈ matchLiti l prev s,
    m.1 = l.length ∧ m.2.2 = s.drop m.1 ∧ m.1 ≤ s.length ∧
      lowerStr (s.take m.1) = lowerStr l := by
  induction l with
  | nil =>
      intro prev s m hm
      simp only [matchLiti, List.mem_singleton] at hm
      subst hm
      simp [lowerStr]
  | cons c cs ih =>
      intro prev s m hm
      cases s with
      | nil => simp [matchLiti] at hm
      | cons d ds =>
          simp only [matchLiti] at hm
          split at hm
          · next heq =>
              simp only [List.mem_map] at hm
              obtain ⟨m2, hm2, rfl⟩ := hm
              obtain ⟨h1, h2, h4, h3⟩ := ih (some d) ds m2 hm2
              refine ⟨by simp [h1], by simp [h2], by simp; omega, ?_⟩
              simp only [lowerStr] at h3 ⊢
              rw [List.take_succ_cons, List.map_cons, heq, h3, List.map_cons]
          · simp at hm

/-- An engine match leaves exactly the drop of what it consumed, and
consumes at most the input. -/
theorem reMatches_rest (r : RE) : ∀ (prev : Option Char) (s : Str),
    ∀ m ∈ reMatches r prev s, m.2.2 = s.drop m.1 ∧ m.1 ≤ s.length := by
  induction r with
  | cls p =>
      intro prev s m hm
      cases s with
      | nil => simp [reMatches] at hm
      | cons c cs =>
          simp only [reMatches] at hm
          split at hm
          · simp only [List.mem_singleton] at hm
            subst hm
            simp
          · simp at hm
  | liti l =>
      intro prev s m hm
      obtain ⟨_, h2, h4, _⟩ := matchLiti_sound l prev s m hm
      exact ⟨h2, h4⟩
  | seq a b iha ihb =>
      intro prev s m hm
      simp only [reMatches, List.mem_flatMap, List.mem_map] at hm
      obtain ⟨r1, hr1, q, hq, rfl⟩ := hm
      obtain ⟨ha1, ha2⟩ := iha prev s r1 hr1
      obtain ⟨hb1, hb2⟩ := ihb r1.2.1 r1.2.2 q hq
      refine ⟨?_, ?_⟩
      · show q.2.2 = s.drop (r1.1 + q.1)
        rw [hb1, ha1, List.drop_drop]
      · show r1.1 + q.1 ≤ s.length
        rw [ha1] at hb2
        simp only [List.length_drop] at hb2
        omega
  | alt a b iha ihb =>
      intro prev s m hm
      rcases List.mem_append.mp hm with h | h
      · exact iha prev s m h
      · exact ihb prev s m h
  | opt a iha =>
      intro prev s m hm
      rcases List.mem_append.mp hm with h | h
      · exact iha prev s m h
      · simp only [List.mem_singleton] at h
        subst h
        simp
  | repn p lo hi =>
      intro prev s m hm
      simp only [reMatches, List.mem_map] at hm
      obtain ⟨k, hk, rfl⟩ := hm
      simp only [repCounts, List.mem_filter, List.mem_reverse, List.mem_range] at hk
      have := (List.takeWhile_prefix p (l := s)).length_le
      exact ⟨rfl, by simp only [consumed]; omega⟩
  | plus p =>
      intro prev s m hm
      simp only [reMatches, List.mem_map] at hm
      obtain ⟨k, hk, rfl⟩ := hm
      simp only [repCounts, List.mem_filter, List.mem_reverse, List.mem_range] at hk
      have := (List.takeWhile_prefix p (l := s)).length_le
      exact ⟨rfl, by simp only [consumed]; omega⟩
  | wordB =>
      intro prev s m hm
      simp only [reMatches] at hm
      split at hm
      · simp only [List.mem_singleton] at hm
        subst hm
        simp
      · simp at hm
  | eos =>
      intro prev s m hm
      simp only [reMatches] at hm
      split at hm
      · simp only [List.mem_singleton] at hm
        subst hm
        simp
      · simp at hm
/-- Every span reported by the scanning worker is a match at its start. -/
theorem findAllAux_sound (r : RE) (full : Str) : ∀ (fuel i : Nat) (st en : Nat),
    (st, en) ∈ findAllAux r full fuel i → matchAt r full st = some en := by
  intro fuel
  induction fuel with
  | zero => intro i st en h; simp [findAllAux] at h
  | succ fuel ih =>
      intro i st en h
      simp only [findAllAux] at h
      split at h
      · simp at h
      · split at h
        · next e hm =>
            split at h <;>
              (rcases List.mem_cons.mp h with h1 | h2
               · rw [Prod.mk.injEq] at h1
                 obtain ⟨rfl, rfl⟩ := h1
                 exact hm
               · exact ih _ st en h2)
        · split at h
          · simp at h
          · exact ih _ st en h

/-- Every span reported by `findAll` is a match at its start. -/
theorem findAll_sound (r : RE) (full : Str) (st en : Nat)
    (h : (st, en) ∈ findAll r full) : matchAt r full st = some en :=
  findAllAux_sound r full _ 0 st en h

/-- A positive `matchAt` comes from a preference-ordered engine match. -/
theorem matchAt_sound (r : RE) (full : Str) (i e : Nat)
    (h : matchAt r full i = some e) :
    ∃ m ∈ reMatches r (if i = 0 then none else (full.take i).getLast?) (full.drop i),
      e = i + m.1 := by
  unfold matchAt at h
  set pv := (if i = 0 then none else (full.take i).getLast?) with hpv
  simp only [] at h
  split at h
  · exact absurd h (by simp)
  · next m rest heq =>
      refine ⟨m, heq ▸ List.mem_cons_self m rest, ?_⟩
      simp only [Option.some.injEq] at h
      omega
/-- The lower-cased text of any resolution-pattern match is one of the six
vocabulary words. -/
theorem resolution_match_lower (full : Str) (st en : Nat)
    (h : (st, en) ∈ findAll resolutionPattern full) :
    lowerStr (slice full st en) ∈
      [sl "2160p", sl "4k", sl "1080p", sl "720p", sl "480p", sl "360p"] := by
  have hm := findAll_sound _ _ _ _ h
  obtain ⟨m, hmem, he⟩ := matchAt_sound _ _ _ _ hm
  have hsl : slice full st en = (full.drop st).take m.1 := by
    unfold slice
    rw [he]
    congr 1
    omega
  rw [hsl]
  simp only [resolutionPattern, altWords, altAll, List.map, reMatches,
    List.mem_append] at hmem
  rcases hmem with h1 | h1 | h1 | h1 | h1 | h1 <;>
    · obtain ⟨_, _, _, h4⟩ := matchLiti_sound _ _ _ _ h1
      rw [h4]
      simp [sl, lowerStr, lcChar]
/-- Each collected match carries the span of a `findAll` of the pattern at
its index. -/
theorem collectAux_sound (name : Str) : ∀ (pats : List RE) (i : Nat) (m : PatMatch),
    m ∈ collectAux name i pats →
    i ≤ m.idx ∧ ∃ r, pats[m.idx - i]? = some r ∧ (m.st, m.en) ∈ findAll r name := by
  intro pats
  induction pats with
  | nil => intro i m h; simp [collectAux] at h
  | cons r rs ih =>
      intro i m h
      rcases List.mem_append.mp h with h1 | h2
      · simp only [List.mem_map] at h1
        obtain ⟨q, hq, rfl⟩ := h1
        exact ⟨Nat.le_refl i, r, by simp, hq⟩
      · obtain ⟨hle, r2, hget, hfa⟩ := ih (i + 1) m h2
        refine ⟨by omega, r2, ?_, hfa⟩
        rw [show m.idx - i = (m.idx - (i + 1)) + 1 by omega]
        simpa using hget

/-- Membership is preserved by the descending insertion. -/
theorem mem_insertDesc (m m2 : PatMatch) : ∀ (l : List PatMatch),
    m2 ∈ insertDesc m l → m2 = m ∨ m2 ∈ l := by
  intro l
  induction l with
  | nil => intro h; simpa [insertDesc] using h
  | cons h t ih =>
      intro hm
      simp only [insertDesc] at hm
      split at hm
      · rcases List.mem_cons.mp hm with h1 | h2
        · exact Or.inl h1
        · exact Or.inr h2
      · rcases List.mem_cons.mp hm with h1 | h2
        · exact Or.inr (h1 ▸ List.mem_cons_self h t)
        · rcases ih h2 with h3 | h4
          · exact Or.inl h3
          · exact Or.inr (List.mem_cons_of_mem h h4)

/-- Membership is preserved by the descending sort. -/
theorem mem_sortDesc (l : List PatMatch) (m : PatMatch)
    (h : m ∈ sortDesc l) : m ∈ l := by
  suffices H : ∀ (l2 : List PatMatch) (acc : List PatMatch), m ∈ l2.foldl
      (fun acc m2 => insertDesc m2 acc) acc → m ∈ acc ∨ m ∈ l2 by
    rcases H l [] h with h1 | h2
    · simp at h1
    · exact h2
  intro l2
  induction l2 with
  | nil => intro acc h2; exact Or.inl h2
  | cons x t ih =>
      intro acc h2
      rcases ih (insertDesc x acc) h2 with h3 | h4
      · rcases mem_insertDesc x m acc h3 with h5 | h6
        · exact Or.inr (h5 ▸ List.mem_cons_self x t)
        · exact Or.inl h6
      · exact Or.inr (List.mem_cons_of_mem x h4)

/-- An accepted resolution handler posts a canonical resolution. -/
theorem resolutionH_canon (name : Str) (m : PatMatch) (info i2 : TorrentInfo)
    (hfa : (m.st, m.en) ∈ findAll resolutionPattern name)
    (h : resolutionH (slice name m.st m.en) info = some i2) :
    i2.Resolution ∈ canonicalResolutions := by
  unfold resolutionH at h
  split at h
  · simp only [Option.some.injEq] at h
    subst h
    have hl := resolution_match_lower name m.st m.en hfa
    simp only [List.mem_cons, List.not_mem_nil, or_false] at hl
    rcases hl with h1 | h1 | h1 | h1 | h1 | h1 <;>
      simp [h1, canonicalResolutions, sl]
  · simp at h
/-- Definite handlers other than the resolution handler leave the
resolution field unchanged. -/
theorem definiteStep_res (cy : Int) : ∀ (idx : Nat), idx ≠ 0 → ∀ (m : Str)
    (info i2 : TorrentInfo), definiteStep cy idx m info = some i2 →
    i2.Resolution = info.Resolution := by
  intro idx hidx m info i2 h
  match idx, hidx with
  | 1, _ =>
      have h2 : sourceH m info = some i2 := h
      unfold sourceH at h2
      try simp only [] at h2
      repeat split at h2
      all_goals first
        | (injection h2 with h3; subst h3; rfl)
        | exact Option.noConfusion h2
  | 2, _ =>
      have h2 : codecH m info = some i2 := h
      unfold codecH at h2
      try simp only [] at h2
      repeat split at h2
      all_goals first
        | (injection h2 with h3; subst h3; rfl)
        | exact Option.noConfusion h2
  | 3, _ =>
      have h2 : episodeH m info = some i2 := h
      unfold episodeH at h2
      try simp only [] at h2
      repeat split at h2
      all_goals first
        | (injection h2 with h3; subst h3; rfl)
        | exact Option.noConfusion h2
  | 4, _ =>
      have h2 : altEpisodeH m info = some i2 := h
      unfold altEpisodeH at h2
      try simp only [] at h2
      repeat split at h2
      all_goals first
        | (injection h2 with h3; subst h3; rfl)
        | exact Option.noConfusion h2
  | 5, _ =>
      have h2 : seasonH m info = some i2 := h
      unfold seasonH at h2
      try simp only [] at h2
      repeat split at h2
      all_goals first
        | (injection h2 with h3; subst h3; rfl)
        | exact Option.noConfusion h2
  | 6, _ =>
      have h2 : seasonAltH m info = some i2 := h
      unfold seasonAltH at h2
      try simp only [] at h2
      repeat split at h2
      all_goals first
        | (injection h2 with h3; subst h3; rfl)
        | exact Option.noConfusion h2
  | 7, _ =>
      have h2 : dateH cy m info = some i2 := h
      unfold dateH at h2
      try simp only [] at h2
      repeat split at h2
      all_goals first
        | (injection h2 with h3; subst h3; rfl)
        | exact Option.noConfusion h2
  | 8, _ =>
      have h2 : btnH m info = some i2 := h
      unfold btnH at h2
      try simp only [] at h2
      repeat split at h2
      all_goals first
        | (injection h2 with h3; subst h3; rfl)
        | exact Option.noConfusion h2
  | (n + 9), _ =>
      exact Option.noConfusion h

/-- Possible-category handlers leave the resolution field unchanged. -/
theorem possibleStep_res (cy : Int) : ∀ (idx : Nat) (m : Str)
    (info i2 : TorrentInfo), possibleStep cy idx m info = some i2 →
    i2.Resolution = info.Resolution := by
  intro idx m info i2 h
  match idx with
  | 0 =>
      have h2 : yearH cy m info = some i2 := h
      unfold yearH at h2
      try simp only [] at h2
      repeat split at h2
      all_goals first
        | (injection h2 with h3; subst h3; rfl)
        | exact Option.noConfusion h2
  | 1 =>
      have h2 : editionH m info = some i2 := h
      unfold editionH at h2
      try simp only [] at h2
      repeat split at h2
      all_goals first
        | (injection h2 with h3; subst h3; rfl)
        | exact Option.noConfusion h2
  | 2 =>
      have h2 : completeH m info = some i2 := h
      unfold completeH at h2
      try simp only [] at h2
      repeat split at h2
      all_goals first
        | (injection h2 with h3; subst h3; rfl)
        | exact Option.noConfusion h2
  | 3 =>
      have h2 : properH m info = some i2 := h
      unfold properH at h2
      try simp only [] at h2
      repeat split at h2
      all_goals first
        | (injection h2 with h3; subst h3; rfl)
        | exact Option.noConfusion h2
  | 4 =>
      have h2 : repackH m info = some i2 := h
      unfold repackH at h2
      try simp only [] at h2
      repeat split at h2
      all_goals first
        | (injection h2 with h3; subst h3; rfl)
        | exact Option.noConfusion h2
  | 5 =>
      have h2 : hardcodedH m info = some i2 := h
      unfold hardcodedH at h2
      try simp only [] at h2
      repeat split at h2
      all_goals first
        | (injection h2 with h3; subst h3; rfl)
        | exact Option.noConfusion h2
  | 6 =>
      have h2 : languageH m info = some i2 := h
      unfold languageH at h2
      try simp only [] at h2
      repeat split at h2
      all_goals first
        | (injection h2 with h3; subst h3; rfl)
        | exact Option.noConfusion h2
  | 7 =>
      have h2 : subsH m info = some i2 := h
      unfold subsH at h2
      try simp only [] at h2
      repeat split at h2
      all_goals first
        | (injection h2 with h3; subst h3; rfl)
        | exact Option.noConfusion h2
  | 8 =>
      have h2 : releaseGroupH m info = some i2 := h
      unfold releaseGroupH at h2
      try simp only [] at h2
      repeat split at h2
      all_goals first
        | (injection h2 with h3; subst h3; rfl)
        | exact Option.noConfusion h2
  | (n + 9) =>
      have h2 : some info = some i2 := h
      injection h2 with h3
      subst h3
      rfl
/-- The phase-1 walk keeps the resolution field canonical. -/
theorem runDefinite_res (cy : Int) (name : Str) : ∀ (ms : List PatMatch)
    (info : TorrentInfo) (pos : Nat),
    info.Resolution ∈ canonicalResolutions →
    (∀ m ∈ ms, m.idx = 0 → (m.st, m.en) ∈ findAll resolutionPattern name) →
    ((runDefinite cy name ms info pos).1).Resolution ∈ canonicalResolutions := by
  intro ms
  induction ms with
  | nil => intro info pos hP _; exact hP
  | cons m rest ih =>
      intro info pos hP hms
      unfold runDefinite
      split
      · exact ih info pos hP (fun m2 hm2 => hms m2 (List.mem_cons_of_mem m hm2))
      · cases hstep : definiteStep cy m.idx (slice name m.st m.en) info with
        | none => exact hP
        | some i2 =>
            apply ih i2 m.st _ (fun m2 hm2 => hms m2 (List.mem_cons_of_mem m hm2))
            by_cases hidx : m.idx = 0
            · rw [hidx] at hstep
              exact resolutionH_canon name m info i2
                (hms m (List.mem_cons_self m rest) hidx) hstep
            · rw [definiteStep_res cy m.idx hidx _ info i2 hstep]
              exact hP

/-- The phase-2 walk does not modify the resolution field. -/
theorem runPossible1_res (cy : Int) (name : Str) (pos : Nat) : ∀ (ms : List PatMatch)
    (info : TorrentInfo) (toks : List Str),
    ((runPossible1 cy name pos ms info toks).1).Resolution = info.Resolution := by
  intro ms
  induction ms with
  | nil => intro info toks; rfl
  | cons m rest ih =>
      intro info toks
      unfold runPossible1
      split
      · rfl
      · simp only []
        cases hstep : possibleStep cy m.idx
            (slice name m.st m.en) info with
        | none => rfl
        | some i2 =>
            rw [ih i2 _]
            exact possibleStep_res cy m.idx _ info i2 hstep

/-- The phase-3 walk does not modify the resolution field. -/
theorem runPossible2_res (cy : Int) (name : Str) : ∀ (ms : List PatMatch)
    (info : TorrentInfo) (pos : Nat),
    ((runPossible2 cy name ms info pos).1).Resolution = info.Resolution := by
  intro ms
  induction ms with
  | nil => intro info pos; rfl
  | cons m rest ih =>
      intro info pos
      unfold runPossible2
      split
      · exact ih info pos
      · split
        · rfl
        · split
          · rfl
          · cases hstep : possibleStep cy m.idx (slice name m.st m.en) info with
            | none => rfl
            | some i2 =>
                rw [ih i2 _]
                exact possibleStep_res cy m.idx _ info i2 hstep

/-- The whole boundary scan keeps the resolution field canonical. -/
theorem findMetadataBoundary_res (cy : Int) (name : Str) (info : TorrentInfo)
    (hP : info.Resolution ∈ canonicalResolutions) :
    ((findMetadataBoundary cy name info).1).Resolution ∈ canonicalResolutions := by
  unfold findMetadataBoundary scanPossibleMetadataPhase2
  rw [runPossible2_res]
  unfold scanPossibleMetadataPhase1
  have hph1 : ∀ (i : TorrentInfo) (p : Nat) (toks : List Str),
      ((if toks = [] then i else { i with Audio := joinSpace toks.reverse }),
        p).1.Resolution = i.Resolution := by
    intro i p toks
    split <;> rfl
  simp only []
  split
  · rw [runPossible1_res]
    unfold scanDefiniteMetadata
    apply runDefinite_res cy name _ _ _ hP
    intro m hm hidx
    obtain ⟨_, r, hget, hfa⟩ :=
      collectAux_sound name definitePatterns 0 m (mem_sortDesc _ m hm)
    rw [hidx] at hget
    simp only [definitePatterns, Nat.sub_self, List.getElem?_cons_zero,
      Option.some.injEq] at hget
    subst hget
    exact hfa
  · rw [runPossible1_res]
    unfold scanDefiniteMetadata
    apply runDefinite_res cy name _ _ _ hP
    intro m hm hidx
    obtain ⟨_, r, hget, hfa⟩ :=
      collectAux_sound name definitePatterns 0 m (mem_sortDesc _ m hm)
    rw [hidx] at hget
    simp only [definitePatterns, Nat.sub_self, List.getElem?_cons_zero,
      Option.some.injEq] at hget
    subst hget
    exact hfa

/-- Container pre-extraction does not modify the resolution field. -/
theorem applyContainer_res (info : TorrentInfo) (name : Str) :
    ((applyContainer info name).1).Resolution = info.Resolution := by
  unfold applyContainer
  cases (findAll containerPattern name).getLast? <;> rfl

/-- Date pre-extraction does not modify the resolution field. -/
theorem applyDate_res (cy : Int) (info : TorrentInfo) (name : Str) :
    ((applyDate cy info name).1).Resolution = info.Resolution := by
  unfold applyDate
  cases findAll datePattern name with
  | nil => rfl
  | cons q t =>
      simp only []
      split <;> rfl

/-- C9 universal part: Parse only ever stores a canonical resolution. -/
theorem calculateConfidence_res2 (i : TorrentInfo) :
    (calculateConfidence i).Resolution = i.Resolution := rfl

theorem update_tu_res (i : TorrentInfo) (t u : Str) :
    ({ i with Title := t, Unparsed := u } : TorrentInfo).Resolution = i.Resolution := rfl

set_option maxHeartbeats 400000 in
theorem parseAt_res_canonical (cy : Int) (name : Str) :
    (parseAt cy name).Resolution ∈ canonicalResolutions := by
  unfold parseAt
  simp only []
  rw [calculateConfidence_res2]
  set C := applyContainer { Confidence := 1 : TorrentInfo } name with hC
  set D := applyDate cy C.1 C.2 with hD
  set B := findMetadataBoundary cy D.2 D.1 with hB
  rw [update_tu_res, hB]
  apply findMetadataBoundary_res
  rw [hD, applyDate_res, hC, applyContainer_res]
  decide
theorem okBr_suffix {s t : Str} (h : okBr s) (hsuf : t <:+ s) : okBr t :=
  fun u u2 hu hequ => h u u2 (hu.trans hsuf) hequ

theorem okBr_prefix {p q : Str} (h : okBr (p ++ q)) : okBr p := by
  intro t t2 hsuf heq
  obtain ⟨a, ha⟩ := hsuf
  have hsuf2 : t ++ q <:+ p ++ q := ⟨a, by rw [← List.append_assoc, ha]⟩
  subst heq
  have := h ('[' :: (t2 ++ q)) (t2 ++ q) (by simpa using hsuf2) rfl
  rcases this with h1 | h2
  · cases t2 with
    | nil => exact Or.inr (List.not_mem_nil ']')
    | cons d t3 => exact Or.inl (by simpa using h1)
  · exact Or.inr (fun hm => h2 (List.mem_append_left q hm))

/-- The head of a nonempty `dropWhile (· != ']')` result is `]`. -/
theorem dropWhile_rb_head : ∀ (ds : Str) (e : Char) (rest : Str),
    ds.dropWhile (fun d => d != ']') = e :: rest → e = ']' := by
  intro ds
  induction ds with
  | nil => intro e rest h; simp [List.dropWhile] at h
  | cons d ds ih =>
      intro e rest h
      rw [List.dropWhile_cons] at h
      split at h
      · exact ih e rest h
      · next hne =>
          simp only [bne_iff_ne, ne_eq, not_not] at hne
          injection h with h1 _
          rw [← h1]
          exact hne

/-- Branch equation: head is not an opening bracket. -/
theorem rmBrAux_nobr (f : Nat) (d : Char) (ds : Str) (h : ¬ d = '[') :
    rmBrAux (f + 1) (d :: ds) = d :: rmBrAux f ds := by
  simp [rmBrAux, h]

/-- Branch equation: a bracketed span is skipped. -/
theorem rmBrAux_skip (f : Nat) (ds rest : Str)
    (hdw : ds.dropWhile (fun d => d != ']') = ']' :: rest)
    (htw : (ds.takeWhile (fun d => d != ']')).isEmpty = false) :
    rmBrAux (f + 1) ('[' :: ds) = rmBrAux f rest := by
  simp [rmBrAux, hdw, htw]

/-- Branch equation: immediately closed bracket, kept. -/
theorem rmBrAux_keep1 (f : Nat) (ds rest : Str)
    (hdw : ds.dropWhile (fun d => d != ']') = ']' :: rest)
    (htw : (ds.takeWhile (fun d => d != ']')).isEmpty = true) :
    rmBrAux (f + 1) ('[' :: ds) = '[' :: rmBrAux f ds := by
  simp [rmBrAux, hdw, htw]

/-- Branch equation: never-closed bracket, kept. -/
theorem rmBrAux_keep2 (f : Nat) (ds : Str)
    (hdw : ds.dropWhile (fun d => d != ']') = []) :
    rmBrAux (f + 1) ('[' :: ds) = '[' :: rmBrAux f ds := by
  simp [rmBrAux, hdw]
/-- Characters of the bracket replacer's output come from its input. -/
theorem mem_rmBrAux : ∀ (f : Nat) (s : Str) (c : Char), c ∈ rmBrAux f s → c ∈ s := by
  intro f
  induction f with
  | zero => intro s c h; simpa [rmBrAux] using h
  | succ f ih =>
      intro s c h
      cases s with
      | nil => simpa [rmBrAux] using h
      | cons d ds =>
          by_cases hd : d = '['
          · subst hd
            rcases hdw : ds.dropWhile (fun x => x != ']') with _ | ⟨e, rest⟩
            · rw [rmBrAux_keep2 f ds hdw] at h
              rcases List.mem_cons.mp h with h1 | h2
              · exact h1 ▸ List.mem_cons_self _ ds
              · exact List.mem_cons_of_mem _ (ih ds c h2)
            · have he := dropWhile_rb_head ds e rest hdw
              subst he
              rcases htw : (ds.takeWhile (fun x => x != ']')).isEmpty with _ | _
              · rw [rmBrAux_skip f ds rest hdw htw] at h
                have hsuf : rest <:+ ds :=
                  (List.suffix_cons ']' rest).trans (hdw ▸ List.dropWhile_suffix _)
                exact List.mem_cons_of_mem _ (hsuf.subset (ih rest c h))
              · rw [rmBrAux_keep1 f ds rest hdw htw] at h
                rcases List.mem_cons.mp h with h1 | h2
                · exact h1 ▸ List.mem_cons_self _ ds
                · exact List.mem_cons_of_mem _ (ih ds c h2)
          · rw [rmBrAux_nobr f d ds hd] at h
            rcases List.mem_cons.mp h with h1 | h2
            · exact h1 ▸ List.mem_cons_self _ ds
            · exact List.mem_cons_of_mem _ (ih ds c h2)

/-- Every nonempty suffix of the bracket replacer's output is the
replacer's output on some suffix of the input, with adequate fuel. -/
theorem rmBrAux_suffix : ∀ (f : Nat) (s : Str), s.length ≤ f →
    ∀ t, t <:+ rmBrAux f s →
    t = [] ∨ ∃ f2 s2, s2 <:+ s ∧ s2.length ≤ f2 ∧ t = rmBrAux f2 s2 := by
  intro f
  induction f with
  | zero =>
      intro s hlen t ht
      have hs : s = [] := List.length_eq_zero.mp (Nat.le_zero.mp hlen)
      subst hs
      simp only [rmBrAux] at ht
      exact Or.inl (List.suffix_nil.mp ht)
  | succ f ih =>
      intro s hlen t ht
      cases s with
      | nil =>
          simp only [rmBrAux] at ht
          exact Or.inl (List.suffix_nil.mp ht)
      | cons d ds =>
          have hlds : ds.length ≤ f := by simp at hlen; omega
          have hwhole : t = rmBrAux (f + 1) (d :: ds) →
              t = [] ∨ ∃ f2 s2, s2 <:+ d :: ds ∧ s2.length ≤ f2 ∧ t = rmBrAux f2 s2 :=
            fun hw => Or.inr ⟨f + 1, d :: ds, List.suffix_refl _, by simp; omega, hw⟩
          by_cases hd : d = '['
          · subst hd
            rcases hdw : ds.dropWhile (fun x => x != ']') with _ | ⟨e, rest⟩
            · rw [rmBrAux_keep2 f ds hdw] at ht
              rcases List.suffix_cons_iff.mp ht with h1 | h2
              · exact hwhole (by rw [rmBrAux_keep2 f ds hdw]; exact h1)
              · rcases ih ds hlds t h2 with h3 | ⟨f2, s2, hs2, hl2, ht2⟩
                · exact Or.inl h3
                · exact Or.inr ⟨f2, s2, hs2.trans (List.suffix_cons _ ds), hl2, ht2⟩
            · have he := dropWhile_rb_head ds e rest hdw
              subst he
              have hsufr : rest <:+ ds :=
                (List.suffix_cons ']' rest).trans (hdw ▸ List.dropWhile_suffix _)
              rcases htw : (ds.takeWhile (fun x => x != ']')).isEmpty with _ | _
              · rw [rmBrAux_skip f ds rest hdw htw] at ht
                have hlr : rest.length ≤ f := Nat.le_trans hsufr.length_le hlds
                rcases ih rest hlr t ht with h3 | ⟨f2, s2, hs2, hl2, ht2⟩
                · exact Or.inl h3
                · exact Or.inr ⟨f2, s2, hs2.trans (hsufr.trans (List.suffix_cons _ ds)),
                    hl2, ht2⟩
              · rw [rmBrAux_keep1 f ds rest hdw htw] at ht
                rcases List.suffix_cons_iff.mp ht with h1 | h2
                · exact hwhole (by rw [rmBrAux_keep1 f ds rest hdw htw]; exact h1)
                · rcases ih ds hlds t h2 with h3 | ⟨f2, s2, hs2, hl2, ht2⟩
                  · exact Or.inl h3
                  · exact Or.inr ⟨f2, s2, hs2.trans (List.suffix_cons _ ds), hl2, ht2⟩
          · rw [rmBrAux_nobr f d ds hd] at ht
            rcases List.suffix_cons_iff.mp ht with h1 | h2
            · exact hwhole (by rw [rmBrAux_nobr f d ds hd]; exact h1)
            · rcases ih ds hlds t h2 with h3 | ⟨f2, s2, hs2, hl2, ht2⟩
              · exact Or.inl h3
              · exact Or.inr ⟨f2, s2, hs2.trans (List.suffix_cons _ ds), hl2, ht2⟩

/-- If the replacer's output starts with an opening bracket, that bracket
closes immediately or never closes in the output. -/
theorem rmBrAux_head : ∀ (f : Nat) (s : Str) (t2 : Str), s.length ≤ f →
    rmBrAux f s = '[' :: t2 → t2.head? = some ']' ∨ ']' ∉ t2 := by
  intro f
  induction f with
  | zero =>
      intro s t2 hlen h
      have hs : s = [] := List.length_eq_zero.mp (Nat.le_zero.mp hlen)
      subst hs
      simp [rmBrAux] at h
  | succ f ih =>
      intro s t2 hlen h
      cases s with
      | nil => simp [rmBrAux] at h
      | cons d ds =>
          have hlds : ds.length ≤ f := by simp at hlen; omega
          by_cases hd : d = '['
          · subst hd
            rcases hdw : ds.dropWhile (fun x => x != ']') with _ | ⟨e, rest⟩
            · rw [rmBrAux_keep2 f ds hdw] at h
              injection h with _ h2
              right
              intro hmem
              have hds : ']' ∈ ds := mem_rmBrAux f ds ']' (h2 ▸ hmem)
              have hall := List.dropWhile_eq_nil_iff.mp hdw
              have := hall ']' hds
              simp at this
            · have he := dropWhile_rb_head ds e rest hdw
              subst he
              rcases htw : (ds.takeWhile (fun x => x != ']')).isEmpty with _ | _
              · rw [rmBrAux_skip f ds rest hdw htw] at h
                have hsufr : rest <:+ ds :=
                  (List.suffix_cons ']' rest).trans (hdw ▸ List.dropWhile_suffix _)
                exact ih rest t2 (Nat.le_trans hsufr.length_le hlds) h
              · rw [rmBrAux_keep1 f ds rest hdw htw] at h
                injection h with _ h2
                have hds : ds = ']' :: rest := by
                  have := List.takeWhile_append_dropWhile (p := fun x => x != ']') (l := ds)
                  rw [List.isEmpty_iff.mp htw, hdw] at this
                  exact this.symm
                subst hds
                left
                rw [← h2]
                cases f with
                | zero => simp at hlds
                | succ f2 =>
                    rw [rmBrAux_nobr f2 ']' rest (by decide)]
                    rfl
          · rw [rmBrAux_nobr f d ds hd] at h
            injection h with h1 _
            exact absurd h1 hd

/-- The bracket replacer's output satisfies the bracket sanity property. -/
theorem okBr_rmBr (s : Str) : okBr (rmBr s) := by
  intro t t2 hsuf heq
  rcases rmBrAux_suffix s.length s (Nat.le_refl _) t hsuf with h1 | ⟨f2, s2, _, hl2, ht2⟩
  · rw [h1] at heq
    exact absurd heq (by simp)
  · exact rmBrAux_head f2 s2 t2 hl2 (by rw [← ht2, heq])
/-- Characters of the whitespace collapser's output are spaces or input
characters. -/
theorem mem_squeezeAux : ∀ (s : Str) (p : Bool) (c : Char),
    c ∈ squeezeAux p s → c = ' ' ∨ c ∈ s := by
  intro s
  induction s with
  | nil =>
      intro p c h
      cases p <;> simp [squeezeAux] at h
      · exact Or.inl h
  | cons d ds ih =>
      intro p c h
      by_cases hw : isRegexSpace d = true
      · rw [show squeezeAux p (d :: ds) = squeezeAux true ds by simp [squeezeAux, hw]] at h
        rcases ih true c h with h1 | h2
        · exact Or.inl h1
        · exact Or.inr (List.mem_cons_of_mem d h2)
      · have hw2 : isRegexSpace d = false := by simpa using hw
        cases p with
        | true =>
            rw [show squeezeAux true (d :: ds) = ' ' :: d :: squeezeAux false ds by
              simp [squeezeAux, hw2]] at h
            rcases List.mem_cons.mp h with h1 | h3
            · exact Or.inl h1
            · rcases List.mem_cons.mp h3 with h4 | h5
              · exact Or.inr (h4 ▸ List.mem_cons_self d ds)
              · rcases ih false c h5 with h6 | h7
                · exact Or.inl h6
                · exact Or.inr (List.mem_cons_of_mem d h7)
        | false =>
            rw [show squeezeAux false (d :: ds) = d :: squeezeAux false ds by
              simp [squeezeAux, hw2]] at h
            rcases List.mem_cons.mp h with h4 | h5
            · exact Or.inr (h4 ▸ List.mem_cons_self d ds)
            · rcases ih false c h5 with h6 | h7
              · exact Or.inl h6
              · exact Or.inr (List.mem_cons_of_mem d h7)

/-- Every nonempty suffix of the collapser's output is the collapser's
output on a suffix of the input. -/
theorem squeezeAux_suffix : ∀ (s : Str) (p : Bool) (t : Str),
    t <:+ squeezeAux p s →
    t = [] ∨ ∃ p2 s2, s2 <:+ s ∧ t = squeezeAux p2 s2 := by
  intro s
  induction s with
  | nil =>
      intro p t ht
      cases p with
      | false =>
          simp only [squeezeAux] at ht
          exact Or.inl (List.suffix_nil.mp ht)
      | true =>
          simp only [squeezeAux] at ht
          rcases List.suffix_cons_iff.mp ht with h1 | h2
          · exact Or.inr ⟨true, [], List.suffix_refl _, by simp [squeezeAux, h1]⟩
          · exact Or.inl (List.suffix_nil.mp h2)
  | cons d ds ih =>
      intro p t ht
      by_cases hw : isRegexSpace d = true
      · rw [show squeezeAux p (d :: ds) = squeezeAux true ds by simp [squeezeAux, hw]] at ht
        rcases ih true t ht with h1 | ⟨p2, s2, hs2, ht2⟩
        · exact Or.inl h1
        · exact Or.inr ⟨p2, s2, hs2.trans (List.suffix_cons d ds), ht2⟩
      · have hw2 : isRegexSpace d = false := by simpa using hw
        cases p with
        | true =>
            rw [show squeezeAux true (d :: ds) = ' ' :: d :: squeezeAux false ds by
              simp [squeezeAux, hw2]] at ht
            rcases List.suffix_cons_iff.mp ht with h1 | h2
            · exact Or.inr ⟨true, d :: ds, List.suffix_refl _, by
                rw [h1]; simp [squeezeAux, hw2]⟩
            · rcases List.suffix_cons_iff.mp h2 with h3 | h4
              · exact Or.inr ⟨false, d :: ds, List.suffix_refl _, by
                  rw [h3]; simp [squeezeAux, hw2]⟩
              · rcases ih false t h4 with h5 | ⟨p2, s2, hs2, ht2⟩
                · exact Or.inl h5
                · exact Or.inr ⟨p2, s2, hs2.trans (List.suffix_cons d ds), ht2⟩
        | false =>
            rw [show squeezeAux false (d :: ds) = d :: squeezeAux false ds by
              simp [squeezeAux, hw2]] at ht
            rcases List.suffix_cons_iff.mp ht with h3 | h4
            · exact Or.inr ⟨false, d :: ds, List.suffix_refl _, by
                rw [h3]; simp [squeezeAux, hw2]⟩
            · rcases ih false t h4 with h5 | ⟨p2, s2, hs2, ht2⟩
              · exact Or.inl h5
              · exact Or.inr ⟨p2, s2, hs2.trans (List.suffix_cons d ds), ht2⟩

/-- If the collapser's output starts with an opening bracket, the input
has a suffix starting with that bracket and the tails correspond. -/
theorem squeezeAux_head_br : ∀ (s : Str) (p : Bool) (t2 : Str),
    squeezeAux p s = '[' :: t2 →
    ∃ cs, ('[' :: cs) <:+ s ∧ t2 = squeezeAux false cs := by
  intro s
  induction s with
  | nil =>
      intro p t2 h
      cases p <;> simp [squeezeAux] at h
  | cons d ds ih =>
      intro p t2 h
      by_cases hw : isRegexSpace d = true
      · rw [show squeezeAux p (d :: ds) = squeezeAux true ds by simp [squeezeAux, hw]] at h
        obtain ⟨cs, hsuf, ht2⟩ := ih true t2 h
        exact ⟨cs, hsuf.trans (List.suffix_cons d ds), ht2⟩
      · have hw2 : isRegexSpace d = false := by simpa using hw
        cases p with
        | true =>
            rw [show squeezeAux true (d :: ds) = ' ' :: d :: squeezeAux false ds by
              simp [squeezeAux, hw2]] at h
            injection h with h1 _
            exact absurd h1 (by decide)
        | false =>
            rw [show squeezeAux false (d :: ds) = d :: squeezeAux false ds by
              simp [squeezeAux, hw2]] at h
            injection h with h1 h2
            subst h1
            exact ⟨ds, List.suffix_refl _, h2.symm⟩

/-- The collapser preserves the bracket sanity property. -/
theorem okBr_squeezeAux (s : Str) (p : Bool) (h : okBr s) : okBr (squeezeAux p s) := by
  intro t t2 hsuf heq
  rcases squeezeAux_suffix s p t hsuf with h1 | ⟨p2, s2, hs2, ht2⟩
  · rw [h1] at heq
    exact absurd heq (by simp)
  · obtain ⟨cs, hsufcs, ht3⟩ := squeezeAux_head_br s2 p2 t2 (by rw [← ht2, heq])
    have hok := h ('[' :: cs) cs (hsufcs.trans hs2) rfl
    rcases hok with h4 | h5
    · cases cs with
      | nil => simp at h4
      | cons e cs2 =>
          simp only [List.head?_cons, Option.some.injEq] at h4
          subst h4
          left
          rw [ht3]
          rw [show squeezeAux false (']' :: cs2) = ']' :: squeezeAux false cs2 by
            simp [squeezeAux, isRegexSpace]]
          rfl
    · right
      intro hm
      rw [ht3] at hm
      rcases mem_squeezeAux cs false ']' hm with h6 | h7
      · exact absurd h6 (by decide)
      · exact h5 h7

/-- The collapser's output has no two consecutive spaces. -/
theorem hds_squeezeAux : ∀ (s : Str) (p : Bool),
    hasDoubleSpace (squeezeAux p s) = false := by
  have hcons : ∀ (c : Char) (l : Str), ¬ c = ' ' → hasDoubleSpace l = false →
      hasDoubleSpace (c :: l) = false := by
    intro c l hc hl
    cases l with
    | nil => rfl
    | cons e l2 => simp [hasDoubleSpace, hc, hl]
  intro s
  induction s with
  | nil => intro p; cases p <;> rfl
  | cons d ds ih =>
      intro p
      by_cases hw : isRegexSpace d = true
      · rw [show squeezeAux p (d :: ds) = squeezeAux true ds by simp [squeezeAux, hw]]
        exact ih true
      · have hw2 : isRegexSpace d = false := by simpa using hw
        have hdns : ¬ d = ' ' := by
          intro hd
          subst hd
          simp [isRegexSpace] at hw2
        cases p with
        | true =>
            rw [show squeezeAux true (d :: ds) = ' ' :: d :: squeezeAux false ds by
              simp [squeezeAux, hw2]]
            have h2 := hcons d (squeezeAux false ds) hdns (ih false)
            cases hsq : d :: squeezeAux false ds with
            | nil => rfl
            | cons e l2 =>
                have he : ¬ (' ' = ' ' ∧ e = ' ') := by
                  intro ⟨_, h3⟩
                  injection hsq with h4 _
                  exact hdns (h4 ▸ h3)
                simp only [hasDoubleSpace]
                rw [← hsq, h2]
                injection hsq with h4 h5
                simp [← h4, hdns]
        | false =>
            rw [show squeezeAux false (d :: ds) = d :: squeezeAux false ds by
              simp [squeezeAux, hw2]]
            exact hcons d _ hdns (ih false)
/-- The right trim yields a prefix of its input. -/
theorem trimRightIf_prefixOf (p : Char → Bool) : ∀ (s : Str), trimRightIf p s <+: s := by
  intro s
  induction s with
  | nil => simp [trimRightIf]
  | cons c cs ih =>
      show (if (trimRightIf p cs).isEmpty && p c then [] else c :: trimRightIf p cs) <+: c :: cs
      split
      · exact List.nil_prefix
      · exact List.cons_prefix_cons.mpr ⟨rfl, ih⟩

/-- A nonempty right trim keeps the head. -/
theorem trimRightIf_head (p : Char → Bool) : ∀ (s : Str),
    trimRightIf p s ≠ [] → (trimRightIf p s).head? = s.head? := by
  intro s
  induction s with
  | nil => intro h; simp [trimRightIf] at h
  | cons c cs _ =>
      intro h
      rw [show trimRightIf p (c :: cs) =
        (if (trimRightIf p cs).isEmpty && p c then [] else c :: trimRightIf p cs) from rfl] at h ⊢
      by_cases hcond : ((trimRightIf p cs).isEmpty && p c) = true
      · rw [if_pos hcond] at h
        exact absurd rfl h
      · rw [if_neg hcond]
        simp

/-- The last character of a right trim does not satisfy the predicate. -/
theorem trimRightIf_last (p : Char → Bool) : ∀ (s : Str) (c : Char),
    (trimRightIf p s).getLast? = some c → p c = false := by
  intro s
  induction s with
  | nil => intro c h; simp [trimRightIf] at h
  | cons d ds ih =>
      intro c h
      rw [show trimRightIf p (d :: ds) =
        (if (trimRightIf p ds).isEmpty && p d then [] else d :: trimRightIf p ds) from rfl] at h
      split at h
      · simp at h
      · next hcond =>
          cases htr : trimRightIf p ds with
          | nil =>
              rw [htr] at h hcond
              simp only [List.isEmpty_nil, Bool.true_and] at hcond
              simp only [htr, List.getLast?_singleton, Option.some.injEq] at h
              subst h
              simpa using hcond
          | cons e l2 =>
              rw [htr] at h
              rw [List.getLast?_cons_cons] at h
              exact ih c (htr ▸ h)

/-- Characters of a right trim come from the input. -/
theorem mem_trimRightIf (p : Char → Bool) (s : Str) (c : Char)
    (h : c ∈ trimRightIf p s) : c ∈ s :=
  (trimRightIf_prefixOf p s).subset h

/-- The head of a `dropWhile` result does not satisfy the predicate. -/
theorem dropWhile_head_not (p : Char → Bool) : ∀ (s : Str) (c : Char),
    (s.dropWhile p).head? = some c → p c = false := by
  intro s
  induction s with
  | nil => intro c h; simp [List.dropWhile] at h
  | cons d ds ih =>
      intro c h
      rw [List.dropWhile_cons] at h
      split at h
      · exact ih c h
      · next hp =>
          simp only [List.head?_cons, Option.some.injEq] at h
          subst h
          simpa using hp

/-- A suffix of a string without double spaces has no double spaces. -/
theorem hds_suffix : ∀ (s t : Str), hasDoubleSpace s = false → t <:+ s →
    hasDoubleSpace t = false := by
  intro s
  induction s with
  | nil =>
      intro t _ hsuf
      rw [List.suffix_nil.mp hsuf]
      rfl
  | cons c cs ih =>
      intro t hs hsuf
      rcases List.suffix_cons_iff.mp hsuf with h1 | h2
      · exact h1 ▸ hs
      · apply ih t _ h2
        cases cs with
        | nil => rfl
        | cons d cs2 =>
            simp only [hasDoubleSpace, Bool.or_eq_false_iff] at hs
            exact hs.2

/-- The right trim preserves the absence of double spaces. -/
theorem hds_trimRightIf (p : Char → Bool) : ∀ (s : Str),
    hasDoubleSpace s = false → hasDoubleSpace (trimRightIf p s) = false := by
  intro s
  induction s with
  | nil => intro _; rfl
  | cons c cs ih =>
      intro hs
      have hcs : hasDoubleSpace cs = false := by
        cases cs with
        | nil => rfl
        | cons d cs2 =>
            simp only [hasDoubleSpace, Bool.or_eq_false_iff] at hs
            exact hs.2
      rw [show trimRightIf p (c :: cs) =
        (if (trimRightIf p cs).isEmpty && p c then [] else c :: trimRightIf p cs) from rfl]
      split
      · rfl
      · cases htr : trimRightIf p cs with
        | nil => rfl
        | cons e l2 =>
            have hhead : e = cs.head?.getD e := by
              have := trimRightIf_head p cs (by rw [htr]; simp)
              rw [htr] at this
              cases cs with
              | nil => simp [trimRightIf] at htr
              | cons d cs2 => simpa using this
            simp only [hasDoubleSpace, Bool.or_eq_false_iff]
            refine ⟨?_, htr ▸ ih hcs⟩
            cases cs with
            | nil => simp [trimRightIf] at htr
            | cons d cs2 =>
                simp only [List.head?_cons, Option.getD_some] at hhead
                subst hhead
                simp only [hasDoubleSpace, Bool.or_eq_false_iff] at hs
                simpa using hs.1

/-- `okBr` is preserved by `goTrimSpace`. -/
theorem okBr_goTrimSpace (s : Str) (h : okBr s) : okBr (goTrimSpace s) := by
  unfold goTrimSpace
  have h2 : okBr (s.dropWhile isGoSpace) := okBr_suffix h (List.dropWhile_suffix _)
  obtain ⟨q, hq⟩ := trimRightIf_prefixOf isGoSpace (s.dropWhile isGoSpace)
  exact okBr_prefix (q := q) (by rw [hq]; exact h2)

/-- A string with the bracket sanity property contains no bracketed span. -/
theorem hasBrSpanB_false_of_okBr : ∀ (s : Str), okBr s → hasBrSpanB s = false := by
  intro s
  induction s with
  | nil => intro _; rfl
  | cons c cs ih =>
      intro h
      have hcs := ih (okBr_suffix h (List.suffix_cons c cs))
      simp only [hasBrSpanB, Bool.or_eq_false_iff]
      refine ⟨?_, hcs⟩
      by_cases hc : c = '['
      · subst hc
        have h2 := h ('[' :: cs) cs (List.suffix_refl _) rfl
        cases cs with
        | nil => rfl
        | cons d cs2 =>
            rcases h2 with h3 | h4
            · simp only [List.head?_cons, Option.some.injEq] at h3
              subst h3
              simp
            · have h5 : (d :: cs2).contains ']' = false := by
                simpa using h4
              simp only [h5, Bool.and_false]
      · simp [hc]
/-- Characters of `removeSpansAux` output come from the input. -/
theorem mem_removeSpansAux (spans : List (Nat × Nat)) : ∀ (s : Str) (i : Nat) (c : Char),
    c ∈ removeSpansAux spans i s → c ∈ s := by
  intro s
  induction s with
  | nil => intro i c h; simpa [removeSpansAux] using h
  | cons d ds ih =>
      intro i c h
      simp only [removeSpansAux] at h
      split at h
      · exact List.mem_cons_of_mem d (ih (i + 1) c h)
      · rcases List.mem_cons.mp h with h1 | h2
        · exact h1 ▸ List.mem_cons_self d ds
        · exact List.mem_cons_of_mem d (ih (i + 1) c h2)

/-- If some span already covers position `i` and reaches past the end of
the rest of the string, everything is removed. -/
theorem removeSpansAux_nil (spans : List (Nat × Nat)) (sp : Nat × Nat)
    (hsp : sp ∈ spans) : ∀ (s : Str) (i : Nat),
    sp.1 ≤ i → i + s.length ≤ sp.2 → removeSpansAux spans i s = [] := by
  intro s
  induction s with
  | nil => intro i _ _; rfl
  | cons d ds ih =>
      intro i h1 h2
      simp only [removeSpansAux]
      rw [if_pos]
      · exact ih (i + 1) (by omega) (by simp at h2; omega)
      · refine List.any_eq_true.mpr ⟨sp, hsp, ?_⟩
        simp only [decide_eq_true_eq, Bool.and_eq_true, decide_eq_true_eq]
        have : 0 < (d :: ds).length := by simp
        constructor
        · exact h1
        · omega

/-- Removing spans that all reach the end of the string yields a prefix. -/
theorem removeSpansAux_prefix (spans : List (Nat × Nat)) : ∀ (s : Str) (i : Nat),
    (∀ sp ∈ spans, i + s.length ≤ sp.2) → removeSpansAux spans i s <+: s := by
  intro s
  induction s with
  | nil => intro i _; simp [removeSpansAux]
  | cons d ds ih =>
      intro i hsp
      simp only [removeSpansAux]
      split
      · next hcov =>
          obtain ⟨sp, hspmem, hspcov⟩ := List.any_eq_true.mp hcov
          simp only [Bool.and_eq_true, decide_eq_true_eq] at hspcov
          rw [removeSpansAux_nil spans sp hspmem ds (i + 1) (by omega)
            (by have := hsp sp hspmem; simp at this; omega)]
          exact List.nil_prefix
      · exact List.cons_prefix_cons.mpr ⟨rfl,
          ih (i + 1) (fun sp h => by have := hsp sp h; simp at this; omega)⟩

/-- Sequencing with a component that consumes to the end consumes to the
end. -/
theorem reMatches_seq_ends (a b : RE)
    (hb : ∀ (prev : Option Char) (t : Str), ∀ q ∈ reMatches b prev t, q.2.2 = []) :
    ∀ (prev : Option Char) (t : Str), ∀ m ∈ reMatches (RE.seq a b) prev t,
    m.2.2 = [] := by
  intro prev t m hm
  simp only [reMatches, List.mem_flatMap, List.mem_map] at hm
  obtain ⟨r1, _, q, hq, rfl⟩ := hm
  exact hb r1.2.1 r1.2.2 q hq

/-- The end-anchor consumes to the end. -/
theorem reMatches_eos_ends : ∀ (prev : Option Char) (t : Str),
    ∀ q ∈ reMatches RE.eos prev t, q.2.2 = [] := by
  intro prev t q hq
  simp only [reMatches] at hq
  split at hq
  · next hemp =>
      simp only [List.mem_singleton] at hq
      subst hq
      exact List.isEmpty_iff.mp hemp
  · simp at hq

/-- Every match of the trailing-parenthetical pattern reaches the end. -/
theorem parenEnd_ends (prev : Option Char) (t : Str) :
    ∀ m ∈ reMatches parenEndPattern prev t, m.2.2 = [] := by
  have h1 := reMatches_eos_ends
  have h2 := reMatches_seq_ends (.liti (sl ")")) _ h1
  have h3 := reMatches_seq_ends (.plus (fun c => c != ')')) _ h2
  have h4 := reMatches_seq_ends (.liti (sl "(")) _ h3
  exact fun m hm => h4 prev t m hm

/-- A trailing-parenthetical match at offset `i` ends at the end of the
string. -/
theorem parenEnd_matchAt_end (s : Str) (i e : Nat)
    (h : matchAt parenEndPattern s i = some e) : e = s.length := by
  obtain ⟨m, hmem, he⟩ := matchAt_sound _ _ _ _ h
  have hrest := parenEnd_ends _ _ m hmem
  obtain ⟨hdrop, hle⟩ := reMatches_rest _ _ _ m hmem
  rw [hrest] at hdrop
  have hlen := congrArg List.length hdrop
  simp only [List.length_nil, List.length_drop] at hlen
  have hi : i ≤ s.length := by
    by_contra hgt
    push_neg at hgt
    have hnil : s.drop i = [] := List.drop_eq_nil_of_le (by omega)
    rw [hnil] at hle
    simp at hle
    have : m.1 = 0 := by omega
    rw [hnil] at hmem
    simp only [parenEndPattern, seqAll, reMatches, matchLiti, sl] at hmem
    simp at hmem
  simp only [List.length_drop] at hle
  omega

/-- Removing the trailing-parenthetical matches yields a prefix. -/
theorem replaceAll_parenEnd_prefix (s : Str) :
    replaceAllEmpty parenEndPattern s <+: s := by
  unfold replaceAllEmpty removeSpans
  apply removeSpansAux_prefix
  intro sp hsp
  rcases sp with ⟨st, en⟩
  have := findAll_sound parenEndPattern s st en hsp
  have h2 := parenEnd_matchAt_end s st en this
  simp
  omega
theorem mem_goTrimSpace (s : Str) (c : Char) (h : c ∈ goTrimSpace s) : c ∈ s :=
  (List.dropWhile_suffix _).subset (mem_trimRightIf _ _ c h)

/-- The cleaned title slice satisfies all six cleanliness properties. -/
theorem extractTitle_props (name : Str) (pos : Nat) :
    (extractTitleFromPosition name pos).contains '.' = false ∧
    (extractTitleFromPosition name pos).contains '_' = false ∧
    hasBrSpanB (extractTitleFromPosition name pos) = false ∧
    hasDoubleSpace (extractTitleFromPosition name pos) = false ∧
    startsWithWsB (extractTitleFromPosition name pos) = false ∧
    endsWithWsB (extractTitleFromPosition name pos) = false := by
  set y := trimRightIf isSepC (name.take pos) with hy
  set s2 := ((y.map (fun c => if c = '.' then ' ' else c)).map
    (fun c => if c = '_' then ' ' else c)) with hs2
  set s3 := rmBr s2 with hs3
  set s4 := replaceAllEmpty parenEndPattern s3 with hs4
  set z := goTrimSpace (squeeze s4) with hz
  have hT : extractTitleFromPosition name pos = goTrimSpace z := rfl
  have hmem2 : ∀ c ∈ s2, ¬ c = '.' ∧ ¬ c = '_' := by
    intro c hc
    rw [hs2] at hc
    simp only [List.map_map, List.mem_map, Function.comp_apply] at hc
    obtain ⟨a, _, rfl⟩ := hc
    by_cases h1 : a = '.'
    · simp [h1]
    · by_cases h2 : a = '_' <;> simp [h1, h2]
  have hchain : ∀ c ∈ extractTitleFromPosition name pos, c = ' ' ∨ c ∈ s2 := by
    intro c hc
    rw [hT] at hc
    have h1 : c ∈ z := mem_goTrimSpace z c hc
    rw [hz] at h1
    have h2 : c ∈ squeeze s4 := mem_goTrimSpace _ c h1
    rcases mem_squeezeAux s4 false c h2 with h3 | h4
    · exact Or.inl h3
    · exact Or.inr (mem_rmBrAux _ _ c
        (mem_removeSpansAux _ _ _ c (hs4 ▸ h4)))
  have hnodot : ∀ c ∈ extractTitleFromPosition name pos, ¬ c = '.' ∧ ¬ c = '_' := by
    intro c hc
    rcases hchain c hc with h1 | h2
    · subst h1
      exact ⟨by decide, by decide⟩
    · exact hmem2 c h2
  have hokT : okBr (extractTitleFromPosition name pos) := by
    rw [hT]
    apply okBr_goTrimSpace
    rw [hz]
    apply okBr_goTrimSpace
    apply okBr_squeezeAux
    obtain ⟨q, hq⟩ := replaceAll_parenEnd_prefix s3
    exact okBr_prefix (q := q) (by rw [hq, hs3]; exact okBr_rmBr s2)
  refine ⟨?_, ?_, hasBrSpanB_false_of_okBr _ hokT, ?_, ?_, ?_⟩
  · have : ¬ '.' ∈ extractTitleFromPosition name pos :=
      fun hmem => (hnodot '.' hmem).1 rfl
    simpa using this
  · have : ¬ '_' ∈ extractTitleFromPosition name pos :=
      fun hmem => (hnodot '_' hmem).2 rfl
    simpa using this
  · rw [hT]
    apply hds_trimRightIf
    apply hds_suffix _ _ _ (List.dropWhile_suffix isGoSpace)
    rw [hz]
    apply hds_trimRightIf
    exact hds_suffix _ _ (hds_squeezeAux s4 false) (List.dropWhile_suffix isGoSpace)
  · have hTu : extractTitleFromPosition name pos =
        trimRightIf isGoSpace (z.dropWhile isGoSpace) := rfl
    cases hcase : extractTitleFromPosition name pos with
    | nil => simp [startsWithWsB]
    | cons e l =>
        have hne : trimRightIf isGoSpace (z.dropWhile isGoSpace) ≠ [] := by
          rw [← hTu, hcase]
          simp
        have hhead := trimRightIf_head isGoSpace (z.dropWhile isGoSpace) hne
        have h2 : (z.dropWhile isGoSpace).head? = some e := by
          rw [← hhead, ← hTu, hcase]
          rfl
        have h3 := dropWhile_head_not isGoSpace z e h2
        simp [startsWithWsB, h3]
  · have hTu : extractTitleFromPosition name pos =
        trimRightIf isGoSpace (z.dropWhile isGoSpace) := rfl
    cases hcase : (extractTitleFromPosition name pos).getLast? with
    | none => simp [endsWithWsB, hcase]
    | some c =>
        have h2 := trimRightIf_last isGoSpace (z.dropWhile isGoSpace) c (hTu ▸ hcase)
        simp [endsWithWsB, hcase, h2]
theorem calculateConfidence_Title (i : TorrentInfo) :
    (calculateConfidence i).Title = i.Title := rfl

theorem update_tu_Title (i : TorrentInfo) (t u : Str) :
    ({ i with Title := t, Unparsed := u } : TorrentInfo).Title = t := rfl
/-- A non-trimmed character survives the right trim. -/
theorem mem_trimRightIf_of (p : Char → Bool) : ∀ (s : Str) (c : Char),
    c ∈ s → p c = false → c ∈ trimRightIf p s := by
  intro s
  induction s with
  | nil => intro c h _; simp at h
  | cons d ds ih =>
      intro c h hpc
      rw [show trimRightIf p (d :: ds) =
        (if (trimRightIf p ds).isEmpty && p d then [] else d :: trimRightIf p ds) from rfl]
      split
      · next hcond =>
          exfalso
          simp only [Bool.and_eq_true, List.isEmpty_iff] at hcond
          rcases List.mem_cons.mp h with h1 | h2
          · rw [h1] at hpc
            rw [hpc] at hcond
            exact Bool.false_ne_true hcond.2
          · have := ih c h2 hpc
            rw [hcond.1] at this
            simp at this
      · rcases List.mem_cons.mp h with h1 | h2
        · exact h1 ▸ List.mem_cons_self d _
        · exact List.mem_cons_of_mem d (ih c h2 hpc)

/-- A non-space character survives the whitespace collapse. -/
theorem mem_squeezeAux_of : ∀ (s : Str) (p : Bool) (c : Char),
    c ∈ s → isRegexSpace c = false → c ∈ squeezeAux p s := by
  intro s
  induction s with
  | nil => intro p c h _; simp at h
  | cons d ds ih =>
      intro p c h hpc
      by_cases hw : isRegexSpace d = true
      · rw [show squeezeAux p (d :: ds) = squeezeAux true ds by simp [squeezeAux, hw]]
        rcases List.mem_cons.mp h with h1 | h2
        · rw [h1] at hpc
          rw [hw] at hpc
          exact absurd hpc (by simp)
        · exact ih true c h2 hpc
      · have hw2 : isRegexSpace d = false := by simpa using hw
        have hbody : d :: squeezeAux false ds ⊆ squeezeAux p (d :: ds) := by
          cases p with
          | true =>
              rw [show squeezeAux true (d :: ds) = ' ' :: d :: squeezeAux false ds by
                simp [squeezeAux, hw2]]
              exact List.subset_cons_self ' ' _
          | false =>
              rw [show squeezeAux false (d :: ds) = d :: squeezeAux false ds by
                simp [squeezeAux, hw2]]
              exact fun x hx => hx
        apply hbody
        rcases List.mem_cons.mp h with h1 | h2
        · exact h1 ▸ List.mem_cons_self d _
        · exact List.mem_cons_of_mem d (ih false c h2 hpc)

/-- A non-dropped character survives `dropWhile`. -/
theorem mem_dropWhile_of (p : Char → Bool) : ∀ (s : Str) (c : Char),
    c ∈ s → p c = false → c ∈ s.dropWhile p := by
  intro s
  induction s with
  | nil => intro c h _; simp at h
  | cons d ds ih =>
      intro c h hpc
      rw [List.dropWhile_cons]
      split
      · next hd =>
          rcases List.mem_cons.mp h with h1 | h2
          · rw [h1] at hpc
            rw [hpc] at hd
            exact absurd hd (by simp)
          · exact ih c h2 hpc
      · exact h

/-- Without an opening bracket, the bracket replacer is the identity. -/
theorem rmBrAux_id : ∀ (f : Nat) (s : Str), '[' ∉ s → rmBrAux f s = s := by
  intro f
  induction f with
  | zero => intro s _; rfl
  | succ f ih =>
      intro s h
      cases s with
      | nil => rfl
      | cons d ds =>
          have hd : ¬ d = '[' := fun hh => h (hh ▸ List.mem_cons_self d ds)
          rw [rmBrAux_nobr f d ds hd]
          rw [ih ds (fun hh => h (List.mem_cons_of_mem d hh))]

/-- Lower-casing only yields an opening parenthesis from one. -/
theorem lcChar_eq_lparen (c : Char) (h : lcChar c = '(') : c = '(' := by
  unfold lcChar at h
  split at h
  · next hup =>
      exfalso
      rw [Bool.and_eq_true, decide_eq_true_eq, decide_eq_true_eq] at hup
      have hA : 65 ≤ c.toNat := hup.1
      have hZ : c.toNat ≤ 90 := hup.2
      have hv : (c.toNat + 32).isValidChar := by left; omega
      have htn : (Char.ofNat (c.toNat + 32)).toNat = c.toNat + 32 := by
        simp [Char.ofNat, hv]
        rfl
      rw [h] at htn
      rw [show ('\x28').toNat = 40 from rfl] at htn
      omega
  · exact h

/-- Without an opening parenthesis there is no trailing-parenthetical
match. -/
theorem reMatches_parenEnd_nil (prev : Option Char) (t : Str) (h : '(' ∉ t) :
    reMatches parenEndPattern prev t = [] := by
  have hlit : matchLiti (sl "(") prev t = [] := by
    cases t with
    | nil => simp [sl, matchLiti]
    | cons d ds =>
        show matchLiti ('(' :: []) prev (d :: ds) = []
        simp only [matchLiti]
        rw [if_neg]
        intro heq
        have hd : d = '(' := lcChar_eq_lparen d (by simpa using heq)
        exact h (hd ▸ List.mem_cons_self d ds)
  show (matchLiti (sl "(") prev t).flatMap _ = []
  rw [hlit]
  rfl

/-- Without an opening parenthesis, `findAll` of the trailing
parenthetical is empty. -/
theorem findAll_parenEnd_nil (s : Str) (h : '(' ∉ s) :
    findAll parenEndPattern s = [] := by
  have hmatch : ∀ i, matchAt parenEndPattern s i = none := by
    intro i
    unfold matchAt
    simp only []
    rw [reMatches_parenEnd_nil _ _ (fun hm => h ((List.drop_subset i s) hm))]
  have haux : ∀ fuel i, findAllAux parenEndPattern s fuel i = [] := by
    intro fuel
    induction fuel with
    | zero => intro i; rfl
    | succ f ih =>
        intro i
        simp only [findAllAux, hmatch]
        split
        · rfl
        · split
          · rfl
          · exact ih (i + 1)
  exact haux _ 0

/-- Removing no spans is the identity. -/
theorem removeSpansAux_nil_spans : ∀ (s : Str) (i : Nat),
    removeSpansAux [] i s = s := by
  intro s
  induction s with
  | nil => intro i; rfl
  | cons d ds ih =>
      intro i
      simp only [removeSpansAux, List.any_nil]
      rw [if_neg (by simp)]
      rw [ih (i + 1)]

/-- The cleaned title slice is nonempty when the slice contains an
alphanumeric character and no brackets or parentheses. -/
theorem extractTitle_nonempty (s : Str) (pos : Nat)
    (h : hasAlnumNoBr (s.take pos) = true) :
    extractTitleFromPosition s pos ≠ [] := by
  unfold hasAlnumNoBr at h
  rw [Bool.and_eq_true, Bool.and_eq_true] at h
  obtain ⟨⟨hany, hnb⟩, hnp⟩ := h
  obtain ⟨c, hcmem, hcal⟩ := List.any_eq_true.mp hany
  have hnb2 : '[' ∉ s.take pos := by
    intro hm
    rw [show ((s.take pos).contains '[') = true by simpa using hm] at hnb
    simp at hnb
  have hnp2 : '(' ∉ s.take pos := by
    intro hm
    rw [show ((s.take pos).contains '(') = true by simpa using hm] at hnp
    simp at hnp
  have hcsep : isSepC c = false := by
    cases hv : isSepC c with
    | false => rfl
    | true =>
        exfalso
        simp only [isSepC, Bool.or_eq_true, decide_eq_true_eq] at hv
        rcases hv with ((h1 | h1) | h1) | h1 <;> (subst h1; exact absurd hcal (by decide))
  set y := trimRightIf isSepC (s.take pos) with hy
  have hcy : c ∈ y := mem_trimRightIf_of isSepC _ c hcmem hcsep
  have hysub : ∀ x, x ∈ y → x ∈ s.take pos := fun x hx => mem_trimRightIf isSepC _ x hx
  set s2 := ((y.map (fun c => if c = '.' then ' ' else c)).map
    (fun c => if c = '_' then ' ' else c)) with hs2
  have hcdot : ¬ c = '.' := fun h1 => absurd hcal (by rw [h1]; decide)
  have hcund : ¬ c = '_' := fun h1 => absurd hcal (by rw [h1]; decide)
  have hc2 : c ∈ s2 := by
    rw [hs2]
    simp only [List.map_map, List.mem_map, Function.comp_apply]
    exact ⟨c, hcy, by simp [hcdot, hcund]⟩
  have hs2nb : '[' ∉ s2 := by
    intro hm
    rw [hs2] at hm
    simp only [List.map_map, List.mem_map, Function.comp_apply] at hm
    obtain ⟨a, ha, haeq⟩ := hm
    by_cases h1 : a = '.'
    · simp [h1] at haeq
    · by_cases h2 : a = '_'
      · simp [h1, h2] at haeq
      · simp [h1, h2] at haeq
        exact hnb2 (haeq ▸ hysub a ha)
  have hs2np : '(' ∉ s2 := by
    intro hm
    rw [hs2] at hm
    simp only [List.map_map, List.mem_map, Function.comp_apply] at hm
    obtain ⟨a, ha, haeq⟩ := hm
    by_cases h1 : a = '.'
    · simp [h1] at haeq
    · by_cases h2 : a = '_'
      · simp [h1, h2] at haeq
      · simp [h1, h2] at haeq
        exact hnp2 (haeq ▸ hysub a ha)
  have hrm : rmBr s2 = s2 := rmBrAux_id s2.length s2 hs2nb
  have hrs : replaceAllEmpty parenEndPattern (rmBr s2) = s2 := by
    rw [hrm]
    unfold replaceAllEmpty removeSpans
    rw [findAll_parenEnd_nil s2 hs2np]
    exact removeSpansAux_nil_spans s2 0
  have hcns : isRegexSpace c = false := by
    cases hv : isRegexSpace c with
    | false => rfl
    | true =>
        exfalso
        have := regexSpace_goSpace c hv
        rw [alnum_not_goSpace c hcal] at this
        exact Bool.false_ne_true this
  have hcgs : isGoSpace c = false := alnum_not_goSpace c hcal
  have hfinal : c ∈ extractTitleFromPosition s pos := by
    show c ∈ goTrimSpace (cleanString y)
    unfold cleanString
    simp only []
    rw [← hs2, hrs]
    apply mem_trimRightIf_of isGoSpace _ c _ hcgs
    apply mem_dropWhile_of isGoSpace _ c _ hcgs
    apply mem_trimRightIf_of isGoSpace _ c _ hcgs
    apply mem_dropWhile_of isGoSpace _ c _ hcgs
    exact mem_squeezeAux_of s2 false c hc2 hcns
  exact List.ne_nil_of_mem hfinal


/-! ## Claim theorems -/

/-- C1: on "Some.Movie.2020.1080p.720p.BluRay.WEB.x264.H265-GROUP" the
definite-metadata scan stops at the first duplicate category (the second
codec token, scanning right to left), so the title absorbs the unconsumed
leading tokens, the codec field holds only the rightmost codec (H265,
normalized), the release group GROUP is set, and resolution and source
stay empty. -/
theorem claim1_duplicate_scan_example :
    (Parse (sl "Some.Movie.2020.1080p.720p.BluRay.WEB.x264.H265-GROUP")).Title =
      sl "Some Movie 2020 1080p 720p BluRay WEB x264" ∧
    (Parse (sl "Some.Movie.2020.1080p.720p.BluRay.WEB.x264.H265-GROUP")).Codec = sl "H265" ∧
    (Parse (sl "Some.Movie.2020.1080p.720p.BluRay.WEB.x264.H265-GROUP")).ReleaseGroup =
      sl "GROUP" ∧
    (Parse (sl "Some.Movie.2020.1080p.720p.BluRay.WEB.x264.H265-GROUP")).Resolution = [] ∧
    (Parse (sl "Some.Movie.2020.1080p.720p.BluRay.WEB.x264.H265-GROUP")).Source = [] := by
  refine ⟨?_, ?_, ?_, ?_, ?_⟩ <;> decide

/-- C2: Parse("The.Matrix.1999.1080p.BluRay.x264-SPARKS") yields title
"The Matrix", year 1999, resolution "1080p", source "BluRay", codec
"H264", release group "SPARKS" and confidence 81. -/
theorem claim2_matrix_example :
    (Parse (sl "The.Matrix.1999.1080p.BluRay.x264-SPARKS")).Title = sl "The Matrix" ∧
    (Parse (sl "The.Matrix.1999.1080p.BluRay.x264-SPARKS")).Year = 1999 ∧
    (Parse (sl "The.Matrix.1999.1080p.BluRay.x264-SPARKS")).Resolution = sl "1080p" ∧
    (Parse (sl "The.Matrix.1999.1080p.BluRay.x264-SPARKS")).Source = sl "BluRay" ∧
    (Parse (sl "The.Matrix.1999.1080p.BluRay.x264-SPARKS")).Codec = sl "H264" ∧
    (Parse (sl "The.Matrix.1999.1080p.BluRay.x264-SPARKS")).ReleaseGroup = sl "SPARKS" ∧
    (Parse (sl "The.Matrix.1999.1080p.BluRay.x264-SPARKS")).Confidence = 81 := by
  refine ⟨?_, ?_, ?_, ?_, ?_, ?_, ?_⟩ <;> decide

/-- C4 counterexample: "[ab].2020.1080p.BluRay.x264-GRP" has non-separator
characters before the metadata boundary (the scanner puts the boundary at
the year token), yet the returned title is empty, because `cleanString`
deletes the bracketed content the prefix consists of. -/
theorem claim4_counterexample :
    (Parse (sl "[ab].2020.1080p.BluRay.x264-GRP")).Title = [] ∧
    containsCharSuch (fun c => !(isSepC c))
      ((preExtractedName currentYear (sl "[ab].2020.1080p.BluRay.x264-GRP")).take
        (parseBoundary currentYear (sl "[ab].2020.1080p.BluRay.x264-GRP"))) = true := by
  constructor <;> decide

/-- C5: the code's failing input for the hdb confidence boost.  Parse
gives confidence 81; multiplying by 1.1 in integer arithmetic and capping
at 100 gives 89; but ParseWithHints with tracker "hdb" returns 100,
because the source compares `Confidence*11` (not the boosted value) with
100 before capping. -/
theorem claim5_hdb_failing_input :
    (Parse (sl "The.Matrix.1999.1080p.BluRay.x264-SPARKS")).Confidence = 81 ∧
    min (81 * 11 / 10) 100 = 89 ∧
    (ParseWithHints (sl "The.Matrix.1999.1080p.BluRay.x264-SPARKS") (sl "hdb")).Confidence
      = 100 := by
  refine ⟨?_, ?_, ?_⟩ <;> decide

/-- C6 counterexample: "Show.E05.1080p.x264-GRP" contains an episode-only
form (E05) and no season marker, yet Parse leaves the season at 0 (and the
episode at 0): the phase-based scanner has no episode-only or
multi-episode pattern and no season-1 convention. -/
theorem claim6_counterexample :
    findAll episodeOnlyPattern (sl "Show.E05.1080p.x264-GRP") ≠ [] ∧
    findAll seasonPattern (sl "Show.E05.1080p.x264-GRP") = [] ∧
    findAll seasonAltPattern (sl "Show.E05.1080p.x264-GRP") = [] ∧
    (Parse (sl "Show.E05.1080p.x264-GRP")).Season = 0 ∧
    (Parse (sl "Show.E05.1080p.x264-GRP")).Episode = 0 := by
  refine ⟨?_, ?_, ?_, ?_, ?_⟩ <;> decide

/-- C6 amended: when the single-episode pattern S##E## matches, the season
is taken from the season marker inside the same matched span and the
episode from the digits after E; episode-only forms (E## without S##) are
not recognized as episode metadata and leave season and episode at 0 — no
season-1 convention exists. -/
theorem claim6_amended :
    (Parse (sl "The.Show.S03E07.1080p.x264-GRP")).Season = 3 ∧
    (Parse (sl "The.Show.S03E07.1080p.x264-GRP")).Episode = 7 ∧
    (Parse (sl "Show.E05.1080p.x264-GRP")).Season = 0 ∧
    (Parse (sl "Show.E05.1080p.x264-GRP")).Episode = 0 := by
  refine ⟨?_, ?_, ?_, ?_⟩ <;> decide

/-- C7 counterexample: with threshold 0, a pair where exactly one title
normalizes to the empty string still matches (the Dice similarity 0 is
not below the threshold), contradicting the claim's "for every
threshold". -/
theorem claim7_counterexample :
    NormalizeTitle (sl "") = [] ∧
    NormalizeTitle (sl "x") ≠ [] ∧
    MatchTitles (sl "") (sl "x") 0 = true := by
  have h1 : NormalizeTitle (sl "") = [] := by decide
  have h2 : NormalizeTitle (sl "x") = ['x'] := by decide
  refine ⟨h1, by decide, ?_⟩
  have hsim : calculateSimilarity [] ['x'] = 0 := by
    simp [calculateSimilarity, goFields, List.dedup]
  simp [MatchTitles, h1, h2, hsim]

/-- C3: for every input, the confidence of the parsed record is at most
100 and equals the weight sum over populated fields (40 for year or
season, 20 for resolution, 10 for source, 10 for release group, 1 for
each of episode, codec, audio, container, language, edition, complete,
proper, repack, hardcoded) capped at 100. -/
theorem claim3_confidence_formula (cy : Int) (name : Str) :
    (parseAt cy name).Confidence ≤ 100 ∧
    (parseAt cy name).Confidence = min 100 (confidencePoints (parseAt cy name)) :=
  calculateConfidence_spec _

/-- C4 amended: for every input, Parse terminates (the embedding is a
total function) and the returned title is derived from the prefix of the
post-pre-extraction input up to the metadata boundary; whenever that
prefix contains an alphanumeric character and no bracket or parenthesis
characters, the title is non-empty. -/
theorem claim4_amended (cy : Int) (name : Str) :
    (parseAt cy name).Title =
      extractTitleFromPosition (preExtractedName cy name) (parseBoundary cy name) ∧
    (hasAlnumNoBr ((preExtractedName cy name).take (parseBoundary cy name)) = true →
      (parseAt cy name).Title ≠ []) := by
  have h1 : (parseAt cy name).Title =
      extractTitleFromPosition (preExtractedName cy name) (parseBoundary cy name) := by
    unfold parseAt preExtractedName parseBoundary
    simp only []
    rw [calculateConfidence_Title, update_tu_Title]
  exact ⟨h1, fun h => h1 ▸ extractTitle_nonempty _ _ h⟩

/-- Witness for the amended C4 theorem at the Matrix release name. -/
theorem claim4_amended_witness :
    hasAlnumNoBr ((preExtractedName 2026 (sl "The.Matrix.1999.1080p.BluRay.x264-SPARKS")).take
      (parseBoundary 2026 (sl "The.Matrix.1999.1080p.BluRay.x264-SPARKS"))) = true ∧
    (parseAt 2026 (sl "The.Matrix.1999.1080p.BluRay.x264-SPARKS")).Title ≠ [] :=
  ⟨by decide,
   (claim4_amended 2026 (sl "The.Matrix.1999.1080p.BluRay.x264-SPARKS")).2 (by decide)⟩

/-- C7 amended: for every threshold, MatchTitles is true when both titles
normalize to the empty string; when exactly one side normalizes to the
empty string the Dice similarity is 0, so MatchTitles is false for every
positive threshold. -/
theorem claim7_amended (t1 t2 : Str) (thr : ℚ) :
    (NormalizeTitle t1 = [] ∧ NormalizeTitle t2 = [] → MatchTitles t1 t2 thr = true) ∧
    (0 < thr →
      (NormalizeTitle t1 = [] ∧ NormalizeTitle t2 ≠ []) ∨
      (NormalizeTitle t1 ≠ [] ∧ NormalizeTitle t2 = []) →
      MatchTitles t1 t2 thr = false) := by
  constructor
  · rintro ⟨h1, h2⟩
    unfold MatchTitles
    rw [h1, h2]
    simp
  · intro hpos hone
    unfold MatchTitles
    rcases hone with ⟨h1, h2⟩ | ⟨h1, h2⟩
    · rw [if_neg (by rw [h1]; exact fun hh => h2 hh.symm)]
      rw [h1, calculateSimilarity_nil_left]
      simp only [decide_eq_false_iff_not, not_le]
      exact hpos
    · rw [if_neg (by rw [h2]; exact fun hh => h1 hh)]
      rw [h2, calculateSimilarity_nil_right]
      simp only [decide_eq_false_iff_not, not_le]
      exact hpos

/-- Witness for the amended C7 theorem at the empty and one-letter
titles with threshold 1. -/
theorem claim7_amended_witness :
    MatchTitles (sl "") (sl "") 1 = true ∧ MatchTitles (sl "") (sl "x") 1 = false :=
  ⟨(claim7_amended (sl "") (sl "") 1).1 ⟨by decide, by decide⟩,
   (claim7_amended (sl "") (sl "x") 1).2 (by norm_num) (Or.inl ⟨by decide, by decide⟩)⟩

/-- C8: NormalizeTitle is idempotent: normalizing an already-normalized
title returns it unchanged. -/
theorem claim8_idempotent (s : Str) :
    NormalizeTitle (NormalizeTitle s) = NormalizeTitle s := by
  have hword : ∀ w ∈ (goFields (lowerStr (s.map normReplace))).filter
      (fun w => decide (w ∉ commonWords)),
      w ≠ [] ∧ ∀ c ∈ w, isAlnumC c = true ∧ lcChar c = c := by
    intro w hw
    have hw2 := List.mem_filter.mp hw
    obtain ⟨hne, hprops⟩ := goFields_sound _ w hw2.1
    refine ⟨hne, fun c hc => ?_⟩
    obtain ⟨hns, hmem⟩ := hprops c hc
    rcases base_char_prop s c hmem with h1 | h2
    · exact h1
    · exact absurd (regexSpace_goSpace c h2) (by simp [hns])
  set ws := (goFields (lowerStr (s.map normReplace))).filter
      (fun w => decide (w ∉ commonWords)) with hws
  have hN : NormalizeTitle s = joinSpace ws := rfl
  rw [hN]
  have hjchar : ∀ c ∈ joinSpace ws, (isAlnumC c = true ∧ lcChar c = c) ∨ c = ' ' := by
    intro c hc
    rcases mem_joinSpace ws c hc with h1 | ⟨w, hwmem, hcw⟩
    · exact Or.inr h1
    · exact Or.inl ((hword w hwmem).2 c hcw)
  have hstep1 : (joinSpace ws).map normReplace = joinSpace ws := by
    apply map_id_of
    intro c hc
    rcases hjchar c hc with ⟨h1, _⟩ | h2
    · simp [normReplace, h1]
    · subst h2; decide
  have hstep2 : lowerStr (joinSpace ws) = joinSpace ws := by
    apply map_id_of
    intro c hc
    rcases hjchar c hc with ⟨_, h1⟩ | h2
    · exact h1
    · subst h2; decide
  have hstep3 : goFields (joinSpace ws) = ws := by
    apply goFields_joinSpace
    · exact fun w hw => (hword w hw).1
    · intro w hw c hc
      exact alnum_not_goSpace c ((hword w hw).2 c hc).1
  have hstep4 : ws.filter (fun w => decide (w ∉ commonWords)) = ws := by
    apply List.filter_eq_self.mpr
    intro w hw
    rw [hws] at hw
    exact (List.mem_filter.mp hw).2
  show joinSpace (((goFields (lowerStr ((joinSpace ws).map normReplace))).filter
      (fun w => decide (w ∉ commonWords)))) = joinSpace ws
  rw [hstep1, hstep2, hstep3, hstep4]

/-- C9: for every input the resolution field of the parsed record is
either empty or one of the five lowercase canonical strings "2160p",
"1080p", "720p", "480p", "360p"; in particular "4K" is stored as "2160p"
and "1080P" is lowercased, so "4K" never appears in the output. -/
theorem claim9_resolution_canonical (cy : Int) (name : Str) :
    (parseAt cy name).Resolution ∈ canonicalResolutions ∧
    (Parse (sl "Movie.2018.4K.BluRay.x264-GRP")).Resolution = sl "2160p" ∧
    (Parse (sl "Movie.2018.1080P.BluRay.x264-GRP")).Resolution = sl "1080p" :=
  ⟨parseAt_res_canonical cy name, by decide, by decide⟩

set_option maxHeartbeats 400000 in
/-- C10: for every input, the title returned by Parse contains no dot or
underscore characters, no bracketed span, no two consecutive spaces, and
no leading or trailing whitespace. -/
theorem claim10_title_clean (cy : Int) (name : Str) :
    (parseAt cy name).Title.contains '.' = false ∧
    (parseAt cy name).Title.contains '_' = false ∧
    hasBrSpanB (parseAt cy name).Title = false ∧
    hasDoubleSpace (parseAt cy name).Title = false ∧
    startsWithWsB (parseAt cy name).Title = false ∧
    endsWithWsB (parseAt cy name).Title = false := by
  unfold parseAt
  simp only []
  rw [calculateConfidence_Title, update_tu_Title]
  exact extractTitle_props _ _

end TorrentName
